import Mathlib

/-!
Verification of the recontronic-cli-client reconnaissance engine.

Go strings are modelled as lists of characters (`GoStr`); domain names and
HTTP headers in this code are ASCII, so byte-wise Go string comparison
coincides with `Char`-wise comparison.  Network and clock effects
(`net.Resolver`, `http.Client`, `time.Now`) are modelled as explicit oracle
parameters; timestamps carried only for display (`first_seen`, `Timestamp`)
are omitted.  Pure computations are translated function by function from the
Go source (`pkg/recon/subdomain.go` for the aggregator, `domains.go` for the
normalization pipeline, the verification file for DNS/HTTP probing, the DNS
enumeration file for takeover checking, and the storage file for snapshot
selection).  Go maps with string keys are modelled as association lists in
insertion order: every property proved below is independent of Go's map
iteration order except where explicitly noted.
-/

set_option maxRecDepth 100000

namespace Recon

/-- Go strings, modelled as lists of characters. -/
abbrev GoStr := List Char

/-- Coerce a Lean string literal to the Go string model. -/
def str (s : String) : GoStr := s.data

/-- Byte-wise Go string comparison `a < b` (lexicographic, shorter first). -/
def strLt : GoStr → GoStr → Bool
  | [], [] => false
  | [], _ :: _ => true
  | _ :: _, [] => false
  | a :: as, b :: bs =>
    if a.toNat < b.toNat then true
    else if b.toNat < a.toNat then false
    else strLt as bs

/-- Go `a <= b` on strings. -/
def strLe (a b : GoStr) : Bool := !(strLt b a)

/-- ASCII whitespace recognised by `strings.TrimSpace` (ASCII fragment). -/
def isSpaceChar (c : Char) : Bool :=
  c = ' ' || c = '\t' || c = '\n' || c = '\x0b' || c = '\x0c' || c = '\r'

/-- `strings.TrimSpace`: drop whitespace from both ends. -/
def trimSpace (s : GoStr) : GoStr :=
  ((s.dropWhile isSpaceChar).reverse.dropWhile isSpaceChar).reverse

/-- `strings.TrimPrefix pre s`: drop `pre` when it heads `s`, else `s`. -/
def trimPfx (pre s : GoStr) : GoStr :=
  if pre.isPrefixOf s then s.drop pre.length else s

/-- `strings.ToLower` (ASCII fragment, sufficient for domain names). -/
def toLowerStr (s : GoStr) : GoStr := s.map Char.toLower

/-- `strings.Contains hay needle`: does `needle` occur inside `hay`? -/
def containsSub : GoStr → GoStr → Bool
  | [], needle => needle.isEmpty
  | c :: t, needle => needle.isPrefixOf (c :: t) || containsSub t needle

/-- Case-insensitive sort key used throughout the domain helpers. -/
def key (s : GoStr) : GoStr := toLowerStr s

/-- Key comparison `ToLower a < ToLower b` from `SortDomains`. -/
def keyLt (a b : GoStr) : Bool := strLt (key a) (key b)

/-- Key order `¬ (ToLower b < ToLower a)`, the sortedness relation. -/
def keyLe (a b : GoStr) : Bool := !(keyLt b a)

/-! ### Normalization pipeline (`CleanDomains` and friends) -/

/-- Wildcard marker stripped by `RemoveWildcards`. -/
def wildcard : GoStr := str "*."

/-- `RemoveWildcards`: strip a leading `*.`, then trim whitespace, drop empties. -/
def RemoveWildcards : List GoStr → List GoStr
  | [] => []
  | d :: ds =>
    let cleaned := trimSpace (trimPfx wildcard d)
    if cleaned = [] then RemoveWildcards ds else cleaned :: RemoveWildcards ds

/-- Recursive core of `Deduplicate`, carrying the `seen` key set. -/
def dedupAux : List GoStr → List GoStr → List GoStr
  | [], _ => []
  | x :: xs, seen =>
    let k := toLowerStr x
    if k ∈ seen then dedupAux xs seen
    else x :: dedupAux xs (k :: seen)

/-- `Deduplicate`: case-insensitive dedup keeping the first-seen casing. -/
def Deduplicate (items : List GoStr) : List GoStr := dedupAux items []

/-- `a[n]`, with the empty string as the (unreached) out-of-bounds value. -/
def idx (l : List GoStr) (n : Nat) : GoStr := (l[n]?).getD []

/-- Inner loop of `SortDomains`: for fixed `i`, scan `j` upward and swap
`a[i]`, `a[j]` whenever `ToLower a[i] > ToLower a[j]`.  The fuel argument
counts the remaining iterations; callers supply exactly `a.length - j`. -/
def innerGo : Nat → List GoStr → Nat → Nat → List GoStr
  | 0, a, _, _ => a
  | fuel + 1, a, i, j =>
    if j < a.length then
      if strLt (toLowerStr (idx a j)) (toLowerStr (idx a i)) then
        innerGo fuel ((a.set i (idx a j)).set j (idx a i)) i (j + 1)
      else innerGo fuel a i (j + 1)
    else a

/-- Outer loop of `SortDomains`; the fuel is the number of remaining rows. -/
def outerGo : Nat → List GoStr → Nat → List GoStr
  | 0, a, _ => a
  | fuel + 1, a, i =>
    if i < a.length then
      outerGo fuel (innerGo (a.length - (i + 1)) a i (i + 1)) (i + 1)
    else a

/-- `SortDomains`: the nested-loop exchange sort on a copy of the input,
comparing case-insensitively. -/
def SortDomains (domains : List GoStr) : List GoStr :=
  outerGo domains.length domains 0

/-- `CleanDomains`: remove wildcards, deduplicate, sort. -/
def CleanDomains (domains : List GoStr) : List GoStr :=
  SortDomains (Deduplicate (RemoveWildcards domains))

/-! ### Aggregator (`EnumerateSubdomains`)

A source is modelled by its name, its `IsAvailable()` answer and the outcome
of its `Enumerate(domain)` call during the run under consideration.  The
`subdomainMap` of the Go code is an association list in insertion order. -/

instance {α β : Type} [DecidableEq α] [DecidableEq β] :
    DecidableEq (Except α β) := fun a b =>
  match a, b with
  | .error x, .error y =>
    if h : x = y then .isTrue (by rw [h]) else .isFalse (by simp [h])
  | .error _, .ok _ => .isFalse (by simp)
  | .ok _, .error _ => .isFalse (by simp)
  | .ok x, .ok y =>
    if h : x = y then .isTrue (by rw [h]) else .isFalse (by simp [h])

/-- One discovery source, as observed during a single enumeration run. -/
structure Source where
  name : GoStr
  available : Bool
  enumerate : Except GoStr (List GoStr)
deriving DecidableEq

/-- A canonical subdomain entry (`first_seen`/metadata omitted: clock data). -/
structure Subdomain where
  name : GoStr
  discoveredBy : List GoStr
deriving DecidableEq

/-- The aggregated enumeration results. -/
structure SubdomainResults where
  domain : GoStr
  sourcesUsed : List GoStr
  totalUnique : Nat
  subdomains : List Subdomain
  summary : List (GoStr × Nat)
deriving DecidableEq

/-- Look a name up in the association list modelling `subdomainMap`. -/
def lookupEntry (entries : List Subdomain) (nm : GoStr) : Option Subdomain :=
  entries.find? (fun e => e.name == nm)

/-- Append `src` to the provenance of the entry named `nm`
(`existing.DiscoveredBy = append(existing.DiscoveredBy, sourceName)`). -/
def appendSrc (entries : List Subdomain) (nm src : GoStr) : List Subdomain :=
  entries.map fun e =>
    if e.name = nm then { e with discoveredBy := e.discoveredBy ++ [src] } else e

/-- Merge one source's cleaned subdomain list into the canonical map. -/
def mergeSubs (entries : List Subdomain) (src : GoStr) : List GoStr → List Subdomain
  | [] => entries
  | c :: cs =>
    if (lookupEntry entries c).isSome then
      mergeSubs (appendSrc entries c src) src cs
    else
      mergeSubs (entries ++ [({ name := c, discoveredBy := [src] } : Subdomain)]) src cs

/-- Process one source inside `EnumerateSubdomains`: skip unavailable
sources; record the name in `SourcesUsed` before enumerating; on error,
continue; on success, clean the results, record the summary count and
merge. -/
def processSource (st : SubdomainResults) (s : Source) : SubdomainResults :=
  if s.available = false then st
  else
    let st1 := { st with sourcesUsed := st.sourcesUsed ++ [s.name] }
    match s.enumerate with
    | .error _ => st1
    | .ok subs =>
      let cleaned := CleanDomains subs
      { st1 with
          summary := st1.summary ++ [(s.name, cleaned.length)]
          subdomains := mergeSubs st1.subdomains s.name cleaned }

/-- `EnumerateSubdomains`: run all sources, then rebuild the subdomain list
in `SortDomains` order of the names and set `TotalUnique`. -/
def EnumerateSubdomains (domain : GoStr) (sources : List Source) :
    SubdomainResults :=
  let st := sources.foldl processSource
    { domain := domain, sourcesUsed := [], totalUnique := 0,
      subdomains := [], summary := [] }
  let sortedNames := SortDomains (st.subdomains.map (·.name))
  let sortedSubs := sortedNames.map fun nm =>
    (lookupEntry st.subdomains nm).getD { name := nm, discoveredBy := [] }
  { st with subdomains := sortedSubs, totalUnique := sortedSubs.length }

/-- Did the source run and return successfully? -/
def sourceOk (s : Source) : Bool :=
  s.available && (match s.enumerate with | .ok _ => true | .error _ => false)

/-- The cleaned output contributed by a source (empty on failure). -/
def cleanedOf (s : Source) : List GoStr :=
  match s.enumerate with
  | .ok subs => CleanDomains subs
  | .error _ => []

/-- The successful sources that reported `nm`, in run order. -/
def reporters (sources : List Source) (nm : GoStr) : List GoStr :=
  (sources.filter fun s => sourceOk s && (cleanedOf s).contains nm).map (·.name)

/-! ### Liveness verifier (`VerifySubdomain` and helpers)

DNS resolution and the per-protocol `client.Do` calls are oracles: a DNS
lookup yields either an error or a list of IPs, and each HTTP attempt
yields either `none` (request failed) or the response the client returned
after its internal redirect handling. -/

/-- `DNSResult`: outcome of the resolution step. -/
structure DNSResult where
  resolves : Bool
  ips : List GoStr
  error : GoStr
deriving DecidableEq

/-- `HTTPResult` (the `RedirectChain` field is never assigned by the code
and is omitted). -/
structure HTTPResult where
  accessible : Bool
  url : GoStr
  statusCode : Nat
  title : GoStr
  finalURL : GoStr
  contentLength : Int
  responseTimeMs : Int
deriving DecidableEq

/-- `VerificationResult` (`Timestamp` omitted: clock data). -/
structure VerificationResult where
  status : GoStr
  dns : Option DNSResult
  http : Option HTTPResult
deriving DecidableEq

/-- What one successful `client.Do` round trip observed. -/
structure HTTPResponse where
  statusCode : Nat
  contentType : GoStr
  body : GoStr
  location : GoStr
  contentLength : Int
  elapsedMs : Int
deriving DecidableEq

/-- `resolveDNS`, as a function of the resolver outcome. -/
def resolveDNS (lookup : Except GoStr (List GoStr)) : DNSResult :=
  match lookup with
  | .error e => { resolves := false, ips := [], error := e }
  | .ok [] => { resolves := false, ips := [], error := str "no IP addresses found" }
  | .ok ips => { resolves := true, ips := ips, error := [] }

/-- Case-insensitive literal matcher (the `(?i)` literals of the title
regex); returns the rest of the input on success. -/
def matchLit : GoStr → GoStr → Option GoStr
  | [], s => some s
  | _ :: _, [] => none
  | c :: cs, x :: xs => if x.toLower = c.toLower then matchLit cs xs else none

/-- Try to match `(?i)<title[^>]*>([^<]+)</title>` at the start of `s`,
returning the capture group.  The pattern is deterministic: `[^>]*` must
stop at the first `>` and `([^<]+)` at the first `<`. -/
def tryTitleAt (s : GoStr) : Option GoStr :=
  match matchLit (str "<title") s with
  | none => none
  | some rest =>
    match rest.dropWhile (fun c => c ≠ '>') with
    | [] => none
    | _ :: rest2 =>
      let cap := rest2.takeWhile (fun c => c ≠ '<')
      let rest3 := rest2.dropWhile (fun c => c ≠ '<')
      if cap = [] then none
      else
        match matchLit (str "</title>") rest3 with
        | some _ => some cap
        | none => none

/-- Leftmost match of the title pattern (`FindStringSubmatch`). -/
def findTitle : GoStr → Option GoStr
  | [] => none
  | c :: rest =>
    match tryTitleAt (c :: rest) with
    | some cap => some cap
    | none => findTitle rest

/-- `extractTitle`: regex capture, trim, truncate past 100 characters. -/
def extractTitle (html : GoStr) : GoStr :=
  match findTitle html with
  | some m =>
    let title := trimSpace m
    if title.length > 100 then title.take 100 ++ str "..." else title
  | none => []

/-- The 1 MB cap on the body read (`io.LimitReader(resp.Body, 1024*1024)`). -/
def bodyCap : Nat := 1024 * 1024

/-- Build the `HTTPResult` for the first successful protocol attempt. -/
def buildHTTPResult (proto sub : GoStr) (resp : HTTPResponse) : HTTPResult :=
  { accessible := true
    url := proto ++ str "://" ++ sub
    statusCode := resp.statusCode
    responseTimeMs := resp.elapsedMs
    contentLength := resp.contentLength
    title :=
      if containsSub resp.contentType (str "text/html") then
        extractTitle (resp.body.take bodyCap)
      else []
    finalURL :=
      if 300 ≤ resp.statusCode ∧ resp.statusCode < 400 ∧ resp.location ≠ [] then
        resp.location
      else [] }

/-- `probeHTTP`: try HTTPS first, then HTTP; always returns a result. -/
def probeHTTP (sub : GoStr) (httpsResp httpResp : Option HTTPResponse) :
    HTTPResult :=
  match httpsResp with
  | some r => buildHTTPResult (str "https") sub r
  | none =>
    match httpResp with
    | some r => buildHTTPResult (str "http") sub r
    | none =>
      { accessible := false, url := [], statusCode := 0, title := [],
        finalURL := [], contentLength := 0, responseTimeMs := 0 }

/-- `VerifySubdomain`: DNS step, then HTTP step; returns `(result, error)`
exactly as the Go function does. -/
def VerifySubdomain (sub : GoStr) (dnsLookup : Except GoStr (List GoStr))
    (httpsResp httpResp : Option HTTPResponse) :
    VerificationResult × Option GoStr :=
  let dnsResult := resolveDNS dnsLookup
  if dnsResult.resolves = false then
    ({ status := str "dead", dns := some dnsResult, http := none }, none)
  else
    let httpResult := probeHTTP sub httpsResp httpResp
    ({ status := if httpResult.accessible then str "alive" else str "dead",
       dns := some dnsResult, http := some httpResult }, none)

/-! ### Redirect handling of the probe's `http.Client`

`chain k` is the response the server gives to the `k`-th request of one
probe (request 0 is the original one).  `CheckRedirect` is called before
following each redirect with `via` the list of requests already made, and
returns `http.ErrUseLastResponse` once `len(via) >= 3`; `client.Do` then
returns the most recent response with a nil error. -/

/-- Client errors surfaced by `CheckRedirect`. -/
inductive ClientErr where
  | useLastResponse
  | other (msg : GoStr)
deriving DecidableEq

/-- The probe client's `CheckRedirect` policy (`len(via) >= 3`). -/
def checkRedirect (via : Nat) : Option ClientErr :=
  if 3 ≤ via then some ClientErr.useLastResponse else none

/-- Does `http.Client` treat this response as a followable redirect? -/
def shouldRedirect (r : HTTPResponse) : Bool :=
  (r.statusCode == 301 || r.statusCode == 302 || r.statusCode == 303 ||
    r.statusCode == 307 || r.statusCode == 308) && !r.location.isEmpty

/-- Redirect loop of `client.Do`; `i` counts requests already made minus
one, the fuel is an upper bound on remaining follows (3 suffices). -/
def clientDoAux (chain : Nat → HTTPResponse) : Nat → Nat → Except GoStr (HTTPResponse × Nat)
  | 0, i => .ok (chain i, i)
  | fuel + 1, i =>
    let resp := chain i
    if shouldRedirect resp then
      match checkRedirect (i + 1) with
      | some ClientErr.useLastResponse => .ok (resp, i)
      | some (ClientErr.other e) => .error e
      | none => clientDoAux chain fuel (i + 1)
    else .ok (resp, i)

/-- `client.Do` under the probe's redirect policy: the classified response
together with the number of redirects followed. -/
def clientDo (chain : Nat → HTTPResponse) : Except GoStr (HTTPResponse × Nat) :=
  clientDoAux chain 3 0

/-! ### DNS deep enumeration: subdomain takeover check -/

/-- Per-host DNS info (`QueryTime` omitted: clock data). -/
structure DNSInfo where
  subdomain : GoStr
  a : List GoStr
  aaaa : List GoStr
  cname : List GoStr
  mx : List GoStr
  txt : List GoStr
  ns : List GoStr
  cloudProvider : GoStr
  takeoverRisk : Bool
  takeoverReason : GoStr
deriving DecidableEq

/-- The static takeover-signature table, in source order.  The Go map's
iteration order is unspecified; all claims proved below are insensitive to
the order except for which of several simultaneously matching services is
named, where this fixed order is one admissible schedule. -/
def takeoverSignatures : List (GoStr × List GoStr) :=
  [ (str "herokuapp.com", [str "No such app", str "There's nothing here"])
  , (str "github.io", [str "404", str "There isn't a GitHub Pages site here"])
  , (str "azurewebsites.net", [str "404", str "Error 404"])
  , (str "cloudfront.net", [str "ERROR: The request could not be satisfied"])
  , (str "s3.amazonaws.com", [str "NoSuchBucket", str "The specified bucket does not exist"])
  , (str "bitbucket.io", [str "Repository not found"])
  , (str "ghost.io", [str "The thing you were looking for is no longer here"])
  , (str "pantheonsite.io", [str "404 error unknown site"])
  , (str "zendesk.com", [str "Help Center Closed"])
  , (str "uservoice.com", [str "This UserVoice subdomain is currently available"])
  , (str "surge.sh", [str "project not found"])
  , (str "tumblr.com", [str "Whatever you were looking for doesn't currently exist"])
  , (str "wordpress.com", [str "Do you want to register"])
  , (str "statuspage.io", [str "You are being redirected"])
  , (str "hubspot.net", [str "404"]) ]

/-- The services of the signature table. -/
def sigServices : List GoStr := takeoverSignatures.map (·.1)

/-- The reason message recorded on a takeover match. -/
def takeoverMsg (service : GoStr) : GoStr :=
  str "CNAME points to " ++ service ++ str " (potential takeover)"

/-- Scan the signature table for a service contained in the lowered CNAME. -/
def checkTakeoverAux (info : DNSInfo) (cl : GoStr) :
    List (GoStr × List GoStr) → DNSInfo
  | [] => info
  | (service, _) :: rest =>
    if containsSub cl service then
      { info with takeoverRisk := true, takeoverReason := takeoverMsg service }
    else checkTakeoverAux info cl rest

/-- `checkSubdomainTakeover`: lower the CNAME and scan the table. -/
def checkSubdomainTakeover (info : DNSInfo) (cname : GoStr) : DNSInfo :=
  checkTakeoverAux info (toLowerStr cname) takeoverSignatures

/-! ### Result store: latest-snapshot selection (`LoadLatestResult`)

Filenames embed a `YYYYMMDD_HHMMSS` timestamp.  `filepath.Glob` returns the
matching filenames sorted; the code picks the lexicographically last one.
The directory contents are modelled as the list of embedded timestamps of
the stored files for `(domain, tool)`. -/

/-- A filename-embedded timestamp (year/month/day/hour/minute/second). -/
structure DateTime6 where
  y : Nat
  mo : Nat
  d : Nat
  h : Nat
  mi : Nat
  s : Nat
deriving DecidableEq

/-- A decimal digit character. -/
def digitChar (n : Nat) : Char := Char.ofNat (48 + n)

/-- Zero-padded two-digit decimal rendering. -/
def pad2 (n : Nat) : GoStr := [digitChar (n / 10), digitChar (n % 10)]

/-- Zero-padded four-digit decimal rendering. -/
def pad4 (n : Nat) : GoStr :=
  [digitChar (n / 1000), digitChar (n / 100 % 10), digitChar (n / 10 % 10),
   digitChar (n % 10)]

/-- `Format("20060102_150405")`. -/
def formatTS (t : DateTime6) : GoStr :=
  pad4 t.y ++ pad2 t.mo ++ pad2 t.d ++ str "_" ++ pad2 t.h ++ pad2 t.mi ++ pad2 t.s

/-- The filename `SaveResults` writes for `(tool, timestamp)`. -/
def resultFilename (tool : GoStr) (t : DateTime6) : GoStr :=
  tool ++ str "_" ++ formatTS t ++ str ".json"

/-- Are all timestamp fields within their rendered digit widths? -/
def validTS (t : DateTime6) : Bool :=
  decide (t.y < 10000) && decide (t.mo < 100) && decide (t.d < 100) &&
  decide (t.h < 100) && decide (t.mi < 100) && decide (t.s < 100)

/-- Chronological value of a timestamp (lexicographic in its fields once
each field is below 100, year below 10000). -/
def tsVal (t : DateTime6) : Nat :=
  ((((t.y * 100 + t.mo) * 100 + t.d) * 100 + t.h) * 100 + t.mi) * 100 + t.s

/-- String order used for sorting glob matches. -/
def strLeP (a b : GoStr) : Prop := strLe a b = true

instance : DecidableRel strLeP := fun a b => by
  unfold strLeP; infer_instance

/-- `filepath.Glob` returns its matches sorted (`sort.Strings`). -/
def sortStrings (files : List GoStr) : List GoStr :=
  List.insertionSort strLeP files

/-- `LoadLatestResult`'s file selection: sort the matches and take the last
(`matches[len(matches)-1]`), erroring when there are none. -/
def loadLatestFile (files : List GoStr) : Except GoStr GoStr :=
  let ms := sortStrings files
  if ms.isEmpty then .error (str "no results found")
  else .ok (ms.getLastD [])

/-- The maximum-timestamp fold over the remaining candidates. -/
def maxTS (t0 : DateTime6) (ts : List DateTime6) : DateTime6 :=
  ts.foldl (fun acc t => if tsVal acc < tsVal t then t else acc) t0

/-- Modelled from the spec: `LoadLatest` "parses the embedded timestamp
from each filename, and selects the maximum" — the file whose parsed
timestamp is chronologically maximal. -/
def specLoadLatest (tool : GoStr) : List DateTime6 → Except GoStr GoStr
  | [] => .error (str "no results found")
  | t :: rest => .ok (resultFilename tool (maxTS t rest))

/-! ### Bounded worker pools (`VerifySubdomains`, `EnumerateDNS`)

Both stages create their own buffered channel `make(chan struct{}, W)` and
wrap each probe between a send (acquire) and receive (release).  A worker
is `running` exactly while it holds a token, i.e. while its probe is in
flight; a send only succeeds while fewer than `W` tokens are held. -/

/-- The lifecycle of one worker goroutine's probe. -/
inductive WStatus where
  | idle
  | running
  | done
deriving DecidableEq

/-- Number of probes currently in flight. -/
def runningCount (ws : List WStatus) : Nat :=
  (ws.filter (fun w => w == WStatus.running)).length

/-- One scheduler step of a stage's pool with width `W`: a worker may
acquire the semaphore only while fewer than `W` probes are in flight, and a
running worker may finish (releasing its token). -/
inductive PoolStep (W : Nat) : List WStatus → List WStatus → Prop
  | acquire (pre post : List WStatus) :
      runningCount (pre ++ WStatus.idle :: post) < W →
      PoolStep W (pre ++ WStatus.idle :: post) (pre ++ WStatus.running :: post)
  | finish (pre post : List WStatus) :
      PoolStep W (pre ++ WStatus.running :: post) (pre ++ WStatus.done :: post)

/-- States reachable by a pool of `n` workers with width `W`, starting from
all workers idle. -/
inductive PoolReach (W n : Nat) : List WStatus → Prop
  | init : PoolReach W n (List.replicate n WStatus.idle)
  | step {s t : List WStatus} : PoolReach W n s → PoolStep W s t → PoolReach W n t

/-! ## Theorems -/

/-! ### Order facts about `strLt` -/

theorem char_eq_of_toNat_eq {a b : Char} (h : a.toNat = b.toNat) : a = b := by
  apply Char.eq_of_val_eq
  apply UInt32.eq_of_toBitVec_eq
  apply BitVec.eq_of_toNat_eq
  exact h

theorem strLt_irrefl : ∀ a : GoStr, strLt a a = false := by
  intro a
  induction a with
  | nil => rfl
  | cons c cs ih => simp [strLt, ih]

theorem strLt_asymm : ∀ a b : GoStr, strLt a b = true → strLt b a = false := by
  intro a
  induction a with
  | nil => intro b _; cases b <;> simp [strLt]
  | cons c cs ih =>
    intro b
    cases b with
    | nil => simp [strLt]
    | cons d ds =>
      simp only [strLt]
      by_cases h1 : c.toNat < d.toNat
      · intro _
        simp [h1, show ¬ d.toNat < c.toNat by omega]
      · by_cases h2 : d.toNat < c.toNat
        · simp [h1, h2]
        · simp [h1, h2]
          exact ih ds

theorem strLt_trans : ∀ a b c : GoStr,
    strLt a b = true → strLt b c = true → strLt a c = true := by
  intro a
  induction a with
  | nil =>
    intro b c hab hbc
    cases b with
    | nil => simp [strLt] at hab
    | cons d ds =>
      cases c with
      | nil => simp [strLt] at hbc
      | cons e es => simp [strLt]
  | cons x xs ih =>
    intro b c hab hbc
    cases b with
    | nil => simp [strLt] at hab
    | cons d ds =>
      cases c with
      | nil => simp [strLt] at hbc
      | cons e es =>
        simp only [strLt] at hab hbc ⊢
        by_cases h1 : x.toNat < d.toNat
        · by_cases h3 : d.toNat < e.toNat
          · simp [show x.toNat < e.toNat by omega]
          · by_cases h4 : e.toNat < d.toNat
            · simp [h3, h4] at hbc
            · simp [show x.toNat < e.toNat by omega]
        · by_cases h2 : d.toNat < x.toNat
          · simp [h1, h2] at hab
          · simp [h1, h2] at hab
            by_cases h3 : d.toNat < e.toNat
            · simp [show x.toNat < e.toNat by omega]
            · by_cases h4 : e.toNat < d.toNat
              · simp [h3, h4] at hbc
              · simp [h3, h4] at hbc
                simp [show ¬ x.toNat < e.toNat by omega,
                      show ¬ e.toNat < x.toNat by omega]
                exact ih ds es hab hbc

theorem strLt_total : ∀ a b : GoStr,
    strLt a b = true ∨ a = b ∨ strLt b a = true := by
  intro a
  induction a with
  | nil => intro b; cases b <;> simp [strLt]
  | cons x xs ih =>
    intro b
    cases b with
    | nil => right; right; simp [strLt]
    | cons d ds =>
      by_cases h1 : x.toNat < d.toNat
      · left; simp [strLt, h1]
      · by_cases h2 : d.toNat < x.toNat
        · right; right; simp [strLt, h2]
        · have hx : x = d := char_eq_of_toNat_eq (by omega)
          subst hx
          rcases ih ds with h | h | h
          · left; simp [strLt, h]
          · right; left; rw [h]
          · right; right; simp [strLt, h]

theorem strLt_eq_of_not_lt {a b : GoStr}
    (h1 : strLt a b = false) (h2 : strLt b a = false) : a = b := by
  rcases strLt_total a b with h | h | h
  · rw [h] at h1; cases h1
  · exact h
  · rw [h] at h2; cases h2

/-! ### Key order facts -/

theorem keyLe_refl (a : GoStr) : keyLe a a = true := by
  simp [keyLe, keyLt, strLt_irrefl]

theorem keyLe_of_keyLt {a b : GoStr} (h : keyLt a b = true) : keyLe a b = true := by
  simp only [keyLe, keyLt] at *
  simp [strLt_asymm _ _ h]

theorem keyLe_trans {a b c : GoStr}
    (h1 : keyLe a b = true) (h2 : keyLe b c = true) : keyLe a c = true := by
  simp only [keyLe, keyLt, Bool.not_eq_true'] at h1 h2 ⊢
  by_contra hne
  have h3 : strLt (key c) (key a) = true := by
    cases hv : strLt (key c) (key a)
    · exact absurd hv hne
    · rfl
  rcases strLt_total (key b) (key c) with hbc | hbc | hbc
  · have h4 := strLt_trans _ _ _ hbc h3
    simp [h4] at h1
  · rw [← hbc] at h3
    simp [h3] at h1
  · simp [hbc] at h2

theorem keyLe_total (a b : GoStr) : keyLe a b = true ∨ keyLe b a = true := by
  simp only [keyLe, keyLt, Bool.not_eq_true']
  rcases strLt_total (key a) (key b) with hl | he | hg
  · left; exact strLt_asymm _ _ hl
  · rw [he]; left; exact strLt_irrefl _
  · right; exact strLt_asymm _ _ hg

theorem strLt_of_ne_of_not_gt {x y : GoStr}
    (hne : y ≠ x) (h : strLt y x = false) : strLt x y = true := by
  rcases strLt_total x y with hl | he | hg
  · exact hl
  · exact absurd he.symm hne
  · rw [hg] at h; cases h

theorem keyLt_of_keyLe_of_key_ne {a b : GoStr}
    (h1 : keyLe a b = true) (h2 : key a ≠ key b) : keyLt a b = true := by
  simp only [keyLe, keyLt, Bool.not_eq_true'] at h1 ⊢
  exact strLt_of_ne_of_not_gt (fun he => h2 he.symm) h1

/-! ### `idx` / `set` helpers -/

theorem idx_cons_zero (y : GoStr) (t : List GoStr) : idx (y :: t) 0 = y := by
  simp [idx]

theorem idx_cons_succ (y : GoStr) (t : List GoStr) (k : Nat) :
    idx (y :: t) (k + 1) = idx t k := by
  simp [idx]

theorem idx_set_ne (l : List GoStr) (i p : Nat) (x : GoStr) (h : i ≠ p) :
    idx (l.set i x) p = idx l p := by
  simp [idx, List.getElem?_set_ne h]

theorem idx_set_self (l : List GoStr) (i : Nat) (x : GoStr) (h : i < l.length) :
    idx (l.set i x) i = x := by
  simp [idx, List.getElem?_set_self h]

theorem idx_eq_getElem (l : List GoStr) (p : Nat) (h : p < l.length) :
    idx l p = l[p] := by
  simp [idx, List.getElem?_eq_getElem h]

/-- Swapping two positions of a list yields a permutation:
`d :: t.set k x ~ x :: t` when `d` is the element at position `k`. -/
theorem cons_set_perm : ∀ (t : List GoStr) (k : Nat), k < t.length →
    ∀ x : GoStr, (idx t k :: t.set k x).Perm (x :: t) := by
  intro t
  induction t with
  | nil => intro k hk; simp at hk
  | cons y t' ih =>
    intro k hk x
    cases k with
    | zero =>
      simp only [idx_cons_zero, List.set_cons_zero]
      exact List.Perm.swap x y t'
    | succ k' =>
      simp only [idx_cons_succ, List.set_cons_succ]
      refine List.Perm.trans (List.Perm.swap y (idx t' k') (t'.set k' x)) ?_
      refine List.Perm.trans ((ih k' (by simpa using hk) x).cons y) ?_
      exact List.Perm.swap x y t'

/-- The set-set swap of the inner sort loop is a permutation. -/
theorem set_set_perm : ∀ (l : List GoStr) (i j : Nat), i < j → j < l.length →
    ((l.set i (idx l j)).set j (idx l i)).Perm l := by
  intro l
  induction l with
  | nil => intro i j _ hj; simp at hj
  | cons y t ih =>
    intro i j hij hj
    cases i with
    | zero =>
      cases j with
      | zero => omega
      | succ j' =>
        simp only [idx_cons_succ, List.set_cons_zero, idx_cons_zero,
          List.set_cons_succ]
        exact cons_set_perm t j' (by simpa using hj) y
    | succ i' =>
      cases j with
      | zero => omega
      | succ j' =>
        simp only [idx_cons_succ, List.set_cons_succ]
        exact (ih i' j' (by omega) (by simpa using hj)).cons y

/-! ### The exchange sort of `SortDomains` -/

theorem innerGo_len : ∀ (fuel : Nat) (a : List GoStr) (i j : Nat),
    (innerGo fuel a i j).length = a.length := by
  intro fuel
  induction fuel with
  | zero => intro a i j; rfl
  | succ fuel ih =>
    intro a i j
    simp only [innerGo]
    split
    · split
      · rw [ih]; simp [List.length_set]
      · exact ih a i (j + 1)
    · rfl

theorem innerGo_getElem?_lt : ∀ (fuel : Nat) (a : List GoStr) (i j p : Nat),
    p ≠ i → p < j → (innerGo fuel a i j)[p]? = a[p]? := by
  intro fuel
  induction fuel with
  | zero => intro a i j p _ _; rfl
  | succ fuel ih =>
    intro a i j p hpi hpj
    simp only [innerGo]
    split
    · split
      · rw [ih _ i (j + 1) p hpi (by omega)]
        rw [List.getElem?_set_ne (by omega), List.getElem?_set_ne (by omega)]
      · exact ih a i (j + 1) p hpi (by omega)
    · rfl

theorem innerGo_idx_lt (fuel : Nat) (a : List GoStr) (i j p : Nat)
    (hpi : p ≠ i) (hpj : p < j) :
    idx (innerGo fuel a i j) p = idx a p := by
  rw [idx, idx, innerGo_getElem?_lt fuel a i j p hpi hpj]

theorem innerGo_perm : ∀ (fuel : Nat) (a : List GoStr) (i j : Nat),
    i < j → (innerGo fuel a i j).Perm a := by
  intro fuel
  induction fuel with
  | zero => intro a i j _; exact List.Perm.refl a
  | succ fuel ih =>
    intro a i j hij
    simp only [innerGo]
    split
    · split
      · refine List.Perm.trans (ih _ i (j + 1) (by omega)) ?_
        exact set_set_perm a i j hij (by assumption)
      · exact ih a i (j + 1) (by omega)
    · exact List.Perm.refl a

theorem innerGo_min : ∀ (fuel : Nat) (a : List GoStr) (i j : Nat),
    a.length ≤ j + fuel → i < j →
    keyLe (idx (innerGo fuel a i j) i) (idx a i) = true ∧
    (∀ q, j ≤ q → q < a.length →
      keyLe (idx (innerGo fuel a i j) i) (idx (innerGo fuel a i j) q) = true) := by
  intro fuel
  induction fuel with
  | zero =>
    intro a i j hfuel hij
    refine ⟨keyLe_refl _, fun q hq1 hq2 => ?_⟩
    omega
  | succ fuel ih =>
    intro a i j hfuel hij
    simp only [innerGo]
    by_cases hj : j < a.length
    · simp only [if_pos hj]
      have hi : i < a.length := by omega
      by_cases hswap : strLt (toLowerStr (idx a j)) (toLowerStr (idx a i)) = true
      · simp only [if_pos hswap]
        set a' := (a.set i (idx a j)).set j (idx a i) with ha'
        have hlen' : a'.length = a.length := by simp [ha', List.length_set]
        have hai' : idx a' i = idx a j := by
          rw [ha', idx_set_ne _ j i _ (by omega), idx_set_self _ i _ (by simpa using hi)]
        have haj' : idx a' j = idx a i := by
          rw [ha', idx_set_self _ j _ (by simp [List.length_set]; omega)]
        have hIH := ih a' i (j + 1) (by omega) (by omega)
        have hlt : keyLt (idx a j) (idx a i) = true := hswap
        have h1 : keyLe (idx (innerGo fuel a' i (j + 1)) i) (idx a j) = true := by
          rw [← hai']; exact hIH.1
        refine ⟨keyLe_trans h1 (keyLe_of_keyLt hlt), fun q hq1 hq2 => ?_⟩
        by_cases hqj : q = j
        · subst hqj
          rw [innerGo_idx_lt fuel a' i (q + 1) q (by omega) (by omega), haj']
          exact keyLe_trans h1 (keyLe_of_keyLt hlt)
        · exact (hIH.2) q (by omega) (by omega)
      · rw [if_neg hswap]
        have hswap' : strLt (toLowerStr (idx a j)) (toLowerStr (idx a i)) = false := by
          simpa using hswap
        have hIH := ih a i (j + 1) (by omega) (by omega)
        have hle : keyLe (idx a i) (idx a j) = true := by
          simp [keyLe, keyLt, key, hswap']
        refine ⟨hIH.1, fun q hq1 hq2 => ?_⟩
        by_cases hqj : q = j
        · subst hqj
          rw [innerGo_idx_lt fuel a i (q + 1) q (by omega) (by omega)]
          exact keyLe_trans hIH.1 hle
        · exact hIH.2 q (by omega) (by omega)
    · simp only [if_neg hj]
      refine ⟨keyLe_refl _, fun q hq1 hq2 => ?_⟩
      omega

theorem outerGo_len : ∀ (fuel : Nat) (a : List GoStr) (i : Nat),
    (outerGo fuel a i).length = a.length := by
  intro fuel
  induction fuel with
  | zero => intro a i; rfl
  | succ fuel ih =>
    intro a i
    simp only [outerGo]
    split
    · rw [ih, innerGo_len]
    · rfl

theorem outerGo_perm : ∀ (fuel : Nat) (a : List GoStr) (i : Nat),
    (outerGo fuel a i).Perm a := by
  intro fuel
  induction fuel with
  | zero => intro a i; exact List.Perm.refl a
  | succ fuel ih =>
    intro a i
    simp only [outerGo]
    split
    · exact List.Perm.trans (ih _ (i + 1)) (innerGo_perm _ a i (i + 1) (by omega))
    · exact List.Perm.refl a

theorem take_eq_of_getElem?_eq {l₁ l₂ : List GoStr} (i : Nat)
    (h : ∀ p, p < i → l₁[p]? = l₂[p]?) : l₁.take i = l₂.take i := by
  apply List.ext_getElem?
  intro n
  rw [List.getElem?_take, List.getElem?_take]
  split
  · exact h n (by assumption)
  · rfl

theorem drop_perm_of_perm_of_prefix_eq {l₁ l₂ : List GoStr} (i : Nat)
    (hperm : l₁.Perm l₂) (h : ∀ p, p < i → l₁[p]? = l₂[p]?) :
    (l₁.drop i).Perm (l₂.drop i) := by
  have htake : l₁.take i = l₂.take i := take_eq_of_getElem?_eq i h
  have h1 : (l₁.take i ++ l₁.drop i).Perm (l₁.take i ++ l₂.drop i) := by
    rw [List.take_append_drop]
    conv_rhs => rw [htake]
    rw [List.take_append_drop]
    exact hperm
  exact (List.perm_append_left_iff _).mp h1

theorem idx_mem_drop {l : List GoStr} {i q : Nat} (hiq : i ≤ q)
    (hq : q < l.length) : idx l q ∈ l.drop i := by
  have h1 : (l.drop i)[q - i]? = l[q]? := by
    rw [List.getElem?_drop]
    congr 1
    omega
  rw [idx, List.getElem?_eq_getElem hq]
  have h2 : (l.drop i)[q - i]? = some l[q] := by rw [h1, List.getElem?_eq_getElem hq]
  have h3 : q - i < (l.drop i).length := by
    by_contra hc
    rw [List.getElem?_eq_none (by omega)] at h2
    cases h2
  rw [List.getElem?_eq_getElem h3] at h2
  simpa [← Option.some_inj.mp h2] using List.getElem_mem h3

theorem outerGo_sorted : ∀ (fuel : Nat) (a : List GoStr) (i : Nat),
    a.length ≤ i + fuel →
    (∀ p q, p < i → p < q → q < a.length →
      keyLe (idx a p) (idx a q) = true) →
    ∀ p q, p < q → q < (outerGo fuel a i).length →
      keyLe (idx (outerGo fuel a i) p) (idx (outerGo fuel a i) q) = true := by
  intro fuel
  induction fuel with
  | zero =>
    intro a i hfuel hQ p q hpq hq
    simp only [outerGo] at *
    exact hQ p q (by omega) hpq hq
  | succ fuel ih =>
    intro a i hfuel hQ p q hpq hq
    simp only [outerGo] at hq ⊢
    by_cases hi : i < a.length
    · simp only [if_pos hi] at hq ⊢
      set a' := innerGo (a.length - (i + 1)) a i (i + 1) with ha'
      have hlen' : a'.length = a.length := innerGo_len _ _ _ _
      have hmin := innerGo_min (a.length - (i + 1)) a i (i + 1) (by omega) (by omega)
      have hQ' : ∀ p q, p < i + 1 → p < q → q < a'.length →
          keyLe (idx a' p) (idx a' q) = true := by
        intro p q hp hpq hq
        by_cases hpi : p = i
        · subst hpi
          exact hmin.2 q (by omega) (by omega)
        · have hp' : p < i := by omega
          have hgp : idx a' p = idx a p :=
            innerGo_idx_lt _ a i (i + 1) p hpi (by omega)
          by_cases hqi : q < i
          · have hgq : idx a' q = idx a q :=
              innerGo_idx_lt _ a i (i + 1) q (by omega) (by omega)
            rw [hgp, hgq]
            exact hQ p q hp' hpq (by omega)
          · -- q ≥ i: idx a' q is an element of the permuted suffix
            have hmem : idx a' q ∈ a'.drop i :=
              idx_mem_drop (by omega) (by omega)
            have hdperm : (a'.drop i).Perm (a.drop i) :=
              drop_perm_of_perm_of_prefix_eq i
                (innerGo_perm _ a i (i + 1) (by omega))
                (fun r hr => innerGo_getElem?_lt _ a i (i + 1) r (by omega) (by omega))
            have hmem2 : idx a' q ∈ a.drop i := hdperm.mem_iff.mp hmem
            obtain ⟨n, hn, hval⟩ := List.getElem_of_mem hmem2
            have hin : i + n < a.length := by
              have := List.length_drop i a
              omega
            have h6 : (a.drop i)[n] = a[i + n] := by
              have h7 : (a.drop i)[n]? = a[i + n]? := List.getElem?_drop a i n
              rw [List.getElem?_eq_getElem hn, List.getElem?_eq_getElem hin] at h7
              exact Option.some_inj.mp h7
            have hval' : idx a' q = idx a (i + n) := by
              rw [idx_eq_getElem a (i + n) hin, ← h6, hval]
            rw [hgp, hval']
            exact hQ p (i + n) hp' (by omega) hin
      exact ih a' (i + 1) (by omega) hQ' p q hpq hq
    · simp only [if_neg hi] at hq ⊢
      exact hQ p q (by omega) hpq hq

theorem SortDomains_perm (domains : List GoStr) :
    (SortDomains domains).Perm domains :=
  outerGo_perm domains.length domains 0

theorem SortDomains_len (domains : List GoStr) :
    (SortDomains domains).length = domains.length :=
  outerGo_len domains.length domains 0

theorem SortDomains_sorted_idx (domains : List GoStr) :
    ∀ p q, p < q → q < (SortDomains domains).length →
      keyLe (idx (SortDomains domains) p) (idx (SortDomains domains) q) = true := by
  intro p q hpq hq
  exact outerGo_sorted domains.length domains 0 (by omega)
    (fun p q hp _ _ => by omega) p q hpq hq

theorem SortDomains_pairwise (domains : List GoStr) :
    (SortDomains domains).Pairwise (fun a b => keyLe a b = true) := by
  rw [List.pairwise_iff_get]
  intro i j hij
  have h := SortDomains_sorted_idx domains i j hij j.isLt
  rw [idx_eq_getElem _ _ i.isLt, idx_eq_getElem _ _ j.isLt] at h
  simpa [List.get_eq_getElem] using h

/-! ### `Deduplicate` and `RemoveWildcards` -/

theorem dedupAux_key_not_seen : ∀ (items seen : List GoStr) (x : GoStr),
    x ∈ dedupAux items seen → toLowerStr x ∉ seen := by
  intro items
  induction items with
  | nil => intro seen x hx; simp [dedupAux] at hx
  | cons y ys ih =>
    intro seen x hx
    simp only [dedupAux] at hx
    by_cases hseen : toLowerStr y ∈ seen
    · rw [if_pos hseen] at hx
      exact ih seen x hx
    · rw [if_neg hseen] at hx
      rcases List.mem_cons.mp hx with rfl | hx
      · exact hseen
      · intro hmem
        exact ih (toLowerStr y :: seen) x hx (List.mem_cons_of_mem _ hmem)

theorem dedupAux_pairwise : ∀ (items seen : List GoStr),
    (dedupAux items seen).Pairwise (fun a b => toLowerStr a ≠ toLowerStr b) := by
  intro items
  induction items with
  | nil => intro seen; simp [dedupAux]
  | cons y ys ih =>
    intro seen
    simp only [dedupAux]
    by_cases hseen : toLowerStr y ∈ seen
    · rw [if_pos hseen]
      exact ih seen
    · rw [if_neg hseen]
      refine List.Pairwise.cons ?_ (ih (toLowerStr y :: seen))
      intro b hb heq
      exact dedupAux_key_not_seen ys (toLowerStr y :: seen) b hb
        (by rw [← heq]; exact List.mem_cons_self _ _)

theorem dedupAux_mem_iff : ∀ (items seen : List GoStr) (x : GoStr),
    x ∈ dedupAux items seen ↔
      toLowerStr x ∉ seen ∧
      items.find? (fun y => toLowerStr y == toLowerStr x) = some x := by
  intro items
  induction items with
  | nil =>
    intro seen x
    simp [dedupAux]
  | cons y ys ih =>
    intro seen x
    simp only [dedupAux]
    by_cases hk : toLowerStr y = toLowerStr x
    · have hfind : (y :: ys).find? (fun z => toLowerStr z == toLowerStr x) = some y := by
        rw [List.find?_cons]
        simp [hk]
      by_cases hseen : toLowerStr y ∈ seen
      · rw [if_pos hseen]
        apply iff_of_false
        · intro hx
          exact ((ih seen x).mp hx).1 (hk ▸ hseen)
        · rintro ⟨hns, _⟩
          exact hns (hk ▸ hseen)
      · rw [if_neg hseen, hfind]
        constructor
        · intro hx
          rcases List.mem_cons.mp hx with rfl | hx
          · exact ⟨by rwa [← hk], rfl⟩
          · exact absurd hk (fun h =>
              ((ih (toLowerStr y :: seen) x).mp hx).1 (h ▸ List.mem_cons_self _ _))
        · rintro ⟨hns, hfx⟩
          rw [Option.some_inj.mp hfx]
          exact List.mem_cons_self _ _
    · have hbeq : (toLowerStr y == toLowerStr x) = false := by
        simp [hk]
      have hfind : (y :: ys).find? (fun z => toLowerStr z == toLowerStr x) =
          ys.find? (fun z => toLowerStr z == toLowerStr x) := by
        rw [List.find?_cons, hbeq]
      by_cases hseen : toLowerStr y ∈ seen
      · rw [if_pos hseen, hfind]
        exact ih seen x
      · rw [if_neg hseen, hfind]
        constructor
        · intro hx
          rcases List.mem_cons.mp hx with rfl | hx
          · exact absurd rfl hk
          · have h2 := (ih (toLowerStr y :: seen) x).mp hx
            exact ⟨fun hmem => h2.1 (List.mem_cons_of_mem _ hmem), h2.2⟩
        · rintro ⟨hns, hfx⟩
          right
          apply (ih (toLowerStr y :: seen) x).mpr
          refine ⟨?_, hfx⟩
          intro hmem
          rcases List.mem_cons.mp hmem with h | h
          · exact hk h.symm
          · exact hns h

theorem Deduplicate_mem_iff (items : List GoStr) (x : GoStr) :
    x ∈ Deduplicate items ↔
      items.find? (fun y => toLowerStr y == toLowerStr x) = some x := by
  unfold Deduplicate
  rw [dedupAux_mem_iff]
  simp

theorem Deduplicate_pairwise (items : List GoStr) :
    (Deduplicate items).Pairwise (fun a b => toLowerStr a ≠ toLowerStr b) :=
  dedupAux_pairwise items []

theorem RemoveWildcards_eq (ds : List GoStr) :
    RemoveWildcards ds =
      (ds.map fun d => trimSpace (trimPfx wildcard d)).filter
        (fun c => !c.isEmpty) := by
  induction ds with
  | nil => rfl
  | cons d ds ih =>
    simp only [RemoveWildcards, List.map_cons, List.filter_cons]
    by_cases hc : trimSpace (trimPfx wildcard d) = []
    · simp [hc, ih]
    · rw [if_neg hc]
      have hne : (!(trimSpace (trimPfx wildcard d)).isEmpty) = true := by
        simpa [List.isEmpty_iff] using hc
      rw [hne, if_pos rfl, ih]

/-- Two strictly key-sorted lists that are permutations of each other are
equal. -/
theorem sorted_strict_unique : ∀ (l₁ l₂ : List GoStr), l₁.Perm l₂ →
    l₁.Pairwise (fun a b => keyLt a b = true) →
    l₂.Pairwise (fun a b => keyLt a b = true) → l₁ = l₂ := by
  intro l₁
  induction l₁ with
  | nil =>
    intro l₂ hperm _ _
    exact (hperm.nil_eq).symm ▸ rfl
  | cons a t₁ ih =>
    intro l₂ hperm h1 h2
    cases l₂ with
    | nil => exact absurd hperm.symm.nil_eq (by simp)
    | cons b t₂ =>
      by_cases hab : a = b
      · subst hab
        rw [ih t₂ (hperm.cons_inv) (List.Pairwise.sublist (List.sublist_cons_self a t₁) h1)
          (List.Pairwise.sublist (List.sublist_cons_self a t₂) h2)]
      · exfalso
        have ha2 : a ∈ b :: t₂ := hperm.mem_iff.mp (List.mem_cons_self a t₁)
        have hb1 : b ∈ a :: t₁ := hperm.mem_iff.mpr (List.mem_cons_self b t₂)
        have ha2' : a ∈ t₂ := by
          rcases List.mem_cons.mp ha2 with h | h
          · exact absurd h hab
          · exact h
        have hb1' : b ∈ t₁ := by
          rcases List.mem_cons.mp hb1 with h | h
          · exact absurd h.symm hab
          · exact h
        have hba : keyLt b a = true := (List.pairwise_cons.mp h2).1 a ha2'
        have hab' : keyLt a b = true := (List.pairwise_cons.mp h1).1 b hb1'
        simp only [keyLt] at hba hab'
        have := strLt_asymm _ _ hab'
        rw [this] at hba
        cases hba

/-! ### CleanDomains: facts feeding the normalization claim -/

theorem CleanDomains_mem_iff (ds : List GoStr) (x : GoStr) :
    x ∈ CleanDomains ds ↔
      (RemoveWildcards ds).find? (fun y => toLowerStr y == toLowerStr x) = some x := by
  unfold CleanDomains
  rw [(SortDomains_perm _).mem_iff]
  exact Deduplicate_mem_iff _ x

theorem CleanDomains_pairwise_keys (ds : List GoStr) :
    (CleanDomains ds).Pairwise (fun a b => toLowerStr a ≠ toLowerStr b) := by
  unfold CleanDomains
  exact ((SortDomains_perm (Deduplicate (RemoveWildcards ds))).pairwise_iff
    (fun h he => h he.symm)).mpr (Deduplicate_pairwise _)

theorem CleanDomains_pairwise_strict (ds : List GoStr) :
    (CleanDomains ds).Pairwise (fun a b => keyLt a b = true) := by
  have h1 : (CleanDomains ds).Pairwise (fun a b => keyLe a b = true) := by
    unfold CleanDomains
    exact SortDomains_pairwise _
  have h2 := CleanDomains_pairwise_keys ds
  exact (h1.and h2).imp (fun h => keyLt_of_keyLe_of_key_ne h.1 h.2)

theorem CleanDomains_nodup (ds : List GoStr) : (CleanDomains ds).Nodup :=
  (CleanDomains_pairwise_keys ds).imp (fun h he => h (by rw [he]))

/-! ### Claim C3 -/

/-- C3 (counterexample): the claim's normalization order and tie-break are
not what the code does.  `RemoveWildcards` strips the `*.` marker before
trimming whitespace, so `" *.x.example.com"` keeps its wildcard (the claim
predicts `"x.example.com"`); and `SortDomains` leaves case-fold-equal names
in input order (`["a.x", "A.x"]` stays put) instead of tie-breaking by
original casing (which would put `"A.x"` first, since `'A' < 'a'`). -/
theorem cleanDomains_claim_counterexample :
    CleanDomains [str " *.x.example.com"] = [str "*.x.example.com"] ∧
    CleanDomains [str " *.x.example.com"] ≠ [str "x.example.com"] ∧
    SortDomains [str "a.x", str "A.x"] = [str "a.x", str "A.x"] ∧
    SortDomains [str "a.x", str "A.x"] ≠ [str "A.x", str "a.x"] := by
  refine ⟨by decide, by decide, by decide, by decide⟩

/-- C3 (amended): each discovered name is normalized by first stripping a
single leading `*.` marker and then trimming surrounding whitespace (so a
name with whitespace before the wildcard keeps its wildcard), empty results
are dropped; duplicates are removed case-insensitively keeping the
first-seen original casing (membership in the output is exactly being the
first normalized name with one's case-folded key); the final list is
sorted case-insensitively and strictly so — no two case-fold-equal names
remain after dedup — which makes the on-disk order the unique strictly
key-sorted arrangement of the deduplicated names, independent of execution
order. -/
theorem cleanDomains_pipeline (ds : List GoStr) :
    RemoveWildcards ds =
      (ds.map fun d => trimSpace (trimPfx wildcard d)).filter
        (fun c => !c.isEmpty) ∧
    (∀ x, x ∈ CleanDomains ds ↔
      (RemoveWildcards ds).find? (fun y => toLowerStr y == toLowerStr x) = some x) ∧
    (CleanDomains ds).Pairwise (fun a b => keyLt a b = true) ∧
    (∀ l', l'.Perm (CleanDomains ds) →
      l'.Pairwise (fun a b => keyLt a b = true) → l' = CleanDomains ds) := by
  refine ⟨RemoveWildcards_eq ds, CleanDomains_mem_iff ds,
    CleanDomains_pairwise_strict ds, fun l' hperm hsorted => ?_⟩
  exact sorted_strict_unique l' (CleanDomains ds) hperm hsorted
    (CleanDomains_pairwise_strict ds)

/-- C3 (witness): the amended theorem applied to a concrete input, using
its uniqueness clause to pin the output order. -/
theorem cleanDomains_pipeline_witness :
    CleanDomains [str "b.Y", str " *.x.q", str "B.y"] = [str "*.x.q", str "b.Y"] := by
  have h := (cleanDomains_pipeline [str "b.Y", str " *.x.q", str "B.y"]).2.2.2
    [str "*.x.q", str "b.Y"] (by decide) (by decide)
  exact h.symm

/-! ### Aggregator: the canonical map and its merge -/

theorem lookupEntry_name {entries : List Subdomain} {nm : GoStr} {e : Subdomain}
    (h : lookupEntry entries nm = some e) : e.name = nm := by
  have := List.find?_some h
  simpa using this

theorem lookupEntry_mem_of_some {entries : List Subdomain} {nm : GoStr}
    {e : Subdomain} (h : lookupEntry entries nm = some e) : e ∈ entries :=
  List.mem_of_find?_eq_some h

theorem lookupEntry_isSome_iff (entries : List Subdomain) (nm : GoStr) :
    (lookupEntry entries nm).isSome = true ↔
      nm ∈ entries.map Subdomain.name := by
  rw [lookupEntry, List.find?_isSome]
  constructor
  · rintro ⟨e, he, hbeq⟩
    simp only [beq_iff_eq] at hbeq
    exact hbeq ▸ List.mem_map_of_mem Subdomain.name he
  · intro hmem
    obtain ⟨e, he, hname⟩ := List.mem_map.mp hmem
    exact ⟨e, he, by simp [hname]⟩

theorem lookupEntry_of_mem : ∀ (entries : List Subdomain),
    (entries.map Subdomain.name).Nodup → ∀ e ∈ entries,
    lookupEntry entries e.name = some e := by
  intro entries
  induction entries with
  | nil => intro _ e he; cases he
  | cons f t ih =>
    intro hnodup e he
    rcases List.mem_cons.mp he with rfl | he
    · simp [lookupEntry, List.find?_cons]
    · have hne : f.name ≠ e.name := by
        intro heq
        have h1 : f.name ∉ t.map Subdomain.name :=
          (List.nodup_cons.mp (by simpa using hnodup)).1
        exact h1 (heq ▸ List.mem_map_of_mem Subdomain.name he)
      have hbeq : (f.name == e.name) = false := by simp [hne]
      rw [lookupEntry, List.find?_cons, hbeq]
      exact ih (List.nodup_cons.mp (by simpa using hnodup)).2 e he

theorem appendSrc_names (entries : List Subdomain) (nm src : GoStr) :
    (appendSrc entries nm src).map Subdomain.name = entries.map Subdomain.name := by
  unfold appendSrc
  rw [List.map_map]
  apply List.map_congr_left
  intro e _
  by_cases h : e.name = nm <;> simp [h]

theorem updEntry_name (e : Subdomain) (nm src : GoStr) :
    (if e.name = nm then { e with discoveredBy := e.discoveredBy ++ [src] }
      else e).name = e.name := by
  by_cases h : e.name = nm <;> simp [h]

theorem lookupEntry_appendSrc (entries : List Subdomain) (nm src m : GoStr) :
    lookupEntry (appendSrc entries nm src) m =
      (lookupEntry entries m).map fun e =>
        if e.name = nm then { e with discoveredBy := e.discoveredBy ++ [src] }
        else e := by
  induction entries with
  | nil => rfl
  | cons f t ih =>
    unfold appendSrc at ih ⊢
    simp only [List.map_cons, lookupEntry, List.find?_cons] at ih ⊢
    by_cases hm : f.name = m
    · rw [show ((if f.name = nm then
          { f with discoveredBy := f.discoveredBy ++ [src] } else f).name == m) = true by
        rw [updEntry_name]; simp [hm]]
      rw [show (f.name == m) = true by simp [hm]]
      simp
    · rw [show ((if f.name = nm then
          { f with discoveredBy := f.discoveredBy ++ [src] } else f).name == m) = false by
        rw [updEntry_name]; simp [hm]]
      rw [show (f.name == m) = false by simp [hm]]
      exact ih

theorem mergeSubs_spec : ∀ (cs : List GoStr) (entries : List Subdomain)
    (src : GoStr), cs.Nodup → (entries.map Subdomain.name).Nodup →
    ((mergeSubs entries src cs).map Subdomain.name).Nodup ∧
    (∀ m, lookupEntry (mergeSubs entries src cs) m =
      match lookupEntry entries m with
      | some e => some (if m ∈ cs then
          { e with discoveredBy := e.discoveredBy ++ [src] } else e)
      | none =>
        if m ∈ cs then some { name := m, discoveredBy := [src] } else none) := by
  intro cs
  induction cs with
  | nil =>
    intro entries src _ hnodup
    refine ⟨hnodup, fun m => ?_⟩
    cases h : lookupEntry entries m <;> simp [mergeSubs, h]
  | cons c cs ih =>
    intro entries src hcs hnodup
    have hcnotin : c ∉ cs := (List.nodup_cons.mp hcs).1
    have hcs' : cs.Nodup := (List.nodup_cons.mp hcs).2
    simp only [mergeSubs]
    by_cases hpres : (lookupEntry entries c).isSome = true
    · rw [if_pos hpres]
      obtain ⟨ec, hec⟩ := Option.isSome_iff_exists.mp hpres
      have hIH := ih (appendSrc entries c src) src hcs'
        (by rw [appendSrc_names]; exact hnodup)
      refine ⟨hIH.1, fun m => ?_⟩
      rw [hIH.2 m, lookupEntry_appendSrc]
      by_cases hmc : m = c
      · subst hmc
        rw [hec]
        have hname : ec.name = m := lookupEntry_name hec
        simp [hname, hcnotin]
      · cases h : lookupEntry entries m with
        | none =>
          simp [hmc]
        | some e =>
          have hname : e.name = m := lookupEntry_name h
          have hgne : e.name = c → False := fun hh => hmc (hname ▸ hh)
          simp [hmc, show ¬ e.name = c from hgne]
    · rw [if_neg hpres]
      have hcnot : c ∉ entries.map Subdomain.name := by
        intro hmem
        exact hpres ((lookupEntry_isSome_iff entries c).mpr hmem)
      have hnodup' : ((entries ++ [({ name := c, discoveredBy := [src] } : Subdomain)]).map
          Subdomain.name).Nodup := by
        rw [List.map_append]
        simp only [List.map_cons, List.map_nil]
        rw [List.nodup_append]
        exact ⟨hnodup, List.nodup_singleton _, by simpa using hcnot⟩
      have hIH := ih (entries ++ [({ name := c, discoveredBy := [src] } : Subdomain)]) src hcs' hnodup'
      refine ⟨hIH.1, fun m => ?_⟩
      rw [hIH.2 m]
      have happ : lookupEntry (entries ++ [({ name := c, discoveredBy := [src] } : Subdomain)]) m =
          (lookupEntry entries m).or
            (if c == m then some { name := c, discoveredBy := [src] } else none) := by
        rw [lookupEntry, List.find?_append]
        congr 1
        simp only [lookupEntry, List.find?_cons, List.find?_nil]
        by_cases h : c = m
        · rw [show (c == m) = true by simp [h]]; simp
        · rw [show (c == m) = false by simp [h]]; simp
      rw [happ]
      cases h : lookupEntry entries m with
      | some e =>
        have hmc : m ≠ c := by
          intro hmc
          rw [hmc] at h
          rw [h] at hpres
          simp at hpres
        simp [hmc]
      | none =>
        by_cases hmc : c = m
        · subst hmc
          simp [hcnotin]
        · simp [hmc, show ¬ m = c from fun hh => hmc hh.symm]

/-! ### Aggregator: the run invariant -/

theorem contains_iff_mem (l : List GoStr) (a : GoStr) :
    l.contains a = true ↔ a ∈ l := List.elem_iff

theorem reporters_append (ps qs : List Source) (nm : GoStr) :
    reporters (ps ++ qs) nm = reporters ps nm ++ reporters qs nm := by
  simp [reporters, List.filter_append]

theorem reporters_single_of_ok {s : Source} (nm : GoStr)
    (hok : sourceOk s = true) :
    reporters [s] nm = if nm ∈ cleanedOf s then [s.name] else [] := by
  by_cases hmem : nm ∈ cleanedOf s
  · have hc : (cleanedOf s).contains nm = true := (contains_iff_mem _ _).mpr hmem
    simp [reporters, hok, hc, hmem]
  · have hc : (cleanedOf s).contains nm = false := by
      cases h : (cleanedOf s).contains nm
      · rfl
      · exact absurd ((contains_iff_mem _ _).mp h) hmem
    simp [reporters, hok, hc, hmem]

theorem reporters_single_of_not_ok {s : Source} (nm : GoStr)
    (hok : sourceOk s = false) : reporters [s] nm = [] := by
  simp [reporters, hok]

theorem reporters_eq_nil_iff (ps : List Source) (nm : GoStr) :
    reporters ps nm = [] ↔
      ¬ ∃ s ∈ ps, sourceOk s = true ∧ nm ∈ cleanedOf s := by
  rw [reporters, List.map_eq_nil_iff, List.filter_eq_nil_iff]
  constructor
  · rintro h ⟨s, hs, hok, hmem⟩
    exact h s hs (by simp [hok, hmem])
  · intro h s hs hp
    simp only [Bool.and_eq_true] at hp
    exact h ⟨s, hs, hp.1, (contains_iff_mem _ _).mp hp.2⟩

theorem processSource_spec (ps : List Source) (st : SubdomainResults) (s : Source)
    (h1 : st.sourcesUsed = (ps.filter (fun t => t.available)).map Source.name)
    (h2 : (st.subdomains.map Subdomain.name).Nodup)
    (h3 : ∀ e ∈ st.subdomains, e.discoveredBy = reporters ps e.name)
    (h4 : ∀ nm, nm ∈ st.subdomains.map Subdomain.name ↔
      ∃ t ∈ ps, sourceOk t = true ∧ nm ∈ cleanedOf t) :
    ((processSource st s).sourcesUsed =
      ((ps ++ [s]).filter (fun t => t.available)).map Source.name) ∧
    (((processSource st s).subdomains.map Subdomain.name).Nodup) ∧
    (∀ e ∈ (processSource st s).subdomains,
      e.discoveredBy = reporters (ps ++ [s]) e.name) ∧
    (∀ nm, nm ∈ (processSource st s).subdomains.map Subdomain.name ↔
      ∃ t ∈ ps ++ [s], sourceOk t = true ∧ nm ∈ cleanedOf t) := by
  unfold processSource
  by_cases hav : s.available = false
  · rw [if_pos hav]
    have hok : sourceOk s = false := by simp [sourceOk, hav]
    refine ⟨?_, h2, ?_, ?_⟩
    · rw [List.filter_append, h1]
      simp [hav]
    · intro e he
      rw [reporters_append, reporters_single_of_not_ok _ hok, List.append_nil]
      exact h3 e he
    · intro nm
      rw [h4 nm]
      constructor
      · rintro ⟨t, ht, hrest⟩
        exact ⟨t, List.mem_append_left _ ht, hrest⟩
      · rintro ⟨t, ht, hokt, hmem⟩
        rcases List.mem_append.mp ht with ht | ht
        · exact ⟨t, ht, hokt, hmem⟩
        · rw [List.mem_singleton.mp ht] at hokt
          rw [hokt] at hok
          cases hok
  · rw [if_neg hav]
    have hav' : s.available = true := by
      cases h : s.available
      · exact absurd h hav
      · rfl
    have hused : (st.sourcesUsed ++ [s.name]) =
        ((ps ++ [s]).filter (fun t => t.available)).map Source.name := by
      rw [List.filter_append, h1]
      simp [hav']
    cases henum : s.enumerate with
    | error msg =>
      have hok : sourceOk s = false := by simp [sourceOk, henum]
      refine ⟨hused, h2, ?_, ?_⟩
      · intro e he
        rw [reporters_append, reporters_single_of_not_ok _ hok, List.append_nil]
        exact h3 e he
      · intro nm
        rw [h4 nm]
        constructor
        · rintro ⟨t, ht, hrest⟩
          exact ⟨t, List.mem_append_left _ ht, hrest⟩
        · rintro ⟨t, ht, hokt, hmem⟩
          rcases List.mem_append.mp ht with ht | ht
          · exact ⟨t, ht, hokt, hmem⟩
          · rw [List.mem_singleton.mp ht] at hokt
            rw [hokt] at hok
            cases hok
    | ok subs =>
      have hok : sourceOk s = true := by simp [sourceOk, hav', henum]
      have hclean : cleanedOf s = CleanDomains subs := by simp [cleanedOf, henum]
      have hspec := mergeSubs_spec (CleanDomains subs) st.subdomains s.name
        (CleanDomains_nodup subs) h2
      refine ⟨hused, hspec.1, ?_, ?_⟩
      · intro e' he'
        have hlk : lookupEntry (mergeSubs st.subdomains s.name (CleanDomains subs))
            e'.name = some e' := lookupEntry_of_mem _ hspec.1 e' he'
        rw [hspec.2 e'.name] at hlk
        rw [reporters_append, reporters_single_of_ok _ hok, hclean]
        split at hlk
        · next e hold =>
          have hename : e.name = e'.name := lookupEntry_name hold
          have hmem : e ∈ st.subdomains := lookupEntry_mem_of_some hold
          have hdb : e.discoveredBy = reporters ps e.name := h3 e hmem
          by_cases hin : e'.name ∈ CleanDomains subs
          · rw [if_pos hin] at hlk
            rw [if_pos hin]
            have he'' := Option.some_inj.mp hlk
            rw [← he'']
            simp [hdb, hename]
          · rw [if_neg hin] at hlk
            rw [if_neg hin]
            have he'' := Option.some_inj.mp hlk
            rw [← he'', List.append_nil]
            rw [hdb, hename]
        · next hold =>
          have hnot : e'.name ∉ st.subdomains.map Subdomain.name := by
            intro hmem
            have := (lookupEntry_isSome_iff st.subdomains e'.name).mpr hmem
            rw [hold] at this
            cases this
          have hrep : reporters ps e'.name = [] := by
            rw [reporters_eq_nil_iff]
            intro hex
            exact hnot ((h4 e'.name).mpr hex)
          by_cases hin : e'.name ∈ CleanDomains subs
          · rw [if_pos hin] at hlk
            rw [if_pos hin, hrep]
            have he'' := Option.some_inj.mp hlk
            rw [← he'']
            simp
          · rw [if_neg hin] at hlk
            cases hlk
      · intro nm
        have hiff := lookupEntry_isSome_iff
          (mergeSubs st.subdomains s.name (CleanDomains subs)) nm
        rw [← hiff, hspec.2 nm]
        split
        · next e hold =>
          simp only [Option.isSome_some]
          have hmem : nm ∈ st.subdomains.map Subdomain.name := by
            rw [← lookupEntry_isSome_iff, hold]
            rfl
          constructor
          · intro _
            obtain ⟨t, ht, hrest⟩ := (h4 nm).mp hmem
            exact ⟨t, List.mem_append_left _ ht, hrest⟩
          · intro _
            trivial
        · next hold =>
          have hnot : nm ∉ st.subdomains.map Subdomain.name := by
            intro hmem
            have := (lookupEntry_isSome_iff st.subdomains nm).mpr hmem
            rw [hold] at this
            cases this
          by_cases hin : nm ∈ CleanDomains subs
          · rw [if_pos hin]
            simp only [Option.isSome_some]
            constructor
            · intro _
              exact ⟨s, List.mem_append_right _ (List.mem_singleton_self s),
                hok, by rw [hclean]; exact hin⟩
            · intro _
              trivial
          · rw [if_neg hin]
            simp only [Option.isSome_none]
            constructor
            · intro h
              cases h
            · rintro ⟨t, ht, hokt, hmemt⟩
              rcases List.mem_append.mp ht with ht | ht
              · exact absurd ((h4 nm).mpr ⟨t, ht, hokt, hmemt⟩) hnot
              · rw [List.mem_singleton.mp ht] at hokt hmemt
                rw [hclean] at hmemt
                exact absurd hmemt hin

theorem agg_fold_spec : ∀ (rest ps : List Source) (st : SubdomainResults),
    st.sourcesUsed = (ps.filter (fun t => t.available)).map Source.name →
    (st.subdomains.map Subdomain.name).Nodup →
    (∀ e ∈ st.subdomains, e.discoveredBy = reporters ps e.name) →
    (∀ nm, nm ∈ st.subdomains.map Subdomain.name ↔
      ∃ t ∈ ps, sourceOk t = true ∧ nm ∈ cleanedOf t) →
    ((rest.foldl processSource st).sourcesUsed =
      ((ps ++ rest).filter (fun t => t.available)).map Source.name) ∧
    (((rest.foldl processSource st).subdomains.map Subdomain.name).Nodup) ∧
    (∀ e ∈ (rest.foldl processSource st).subdomains,
      e.discoveredBy = reporters (ps ++ rest) e.name) ∧
    (∀ nm, nm ∈ (rest.foldl processSource st).subdomains.map Subdomain.name ↔
      ∃ t ∈ ps ++ rest, sourceOk t = true ∧ nm ∈ cleanedOf t) := by
  intro rest
  induction rest with
  | nil =>
    intro ps st h1 h2 h3 h4
    simp only [List.foldl_nil, List.append_nil]
    exact ⟨h1, h2, h3, h4⟩
  | cons s rest ih =>
    intro ps st h1 h2 h3 h4
    have hstep := processSource_spec ps st s h1 h2 h3 h4
    have hres := ih (ps ++ [s]) (processSource st s)
      hstep.1 hstep.2.1 hstep.2.2.1 hstep.2.2.2
    simpa [List.append_assoc] using hres

theorem map_lookup_names (entries : List Subdomain)
    (hnodup : (entries.map Subdomain.name).Nodup) :
    (entries.map Subdomain.name).map
      (fun nm => (lookupEntry entries nm).getD { name := nm, discoveredBy := [] })
      = entries := by
  rw [List.map_map]
  have h : ∀ e ∈ entries,
      ((fun nm => (lookupEntry entries nm).getD { name := nm, discoveredBy := [] })
        ∘ Subdomain.name) e = id e := by
    intro e he
    simp [lookupEntry_of_mem entries hnodup e he]
  rw [List.map_congr_left h, List.map_id]

/-- The full functional description of one `EnumerateSubdomains` run:
`sources_used` is exactly the available sources in run order, the canonical
names are distinct, each entry's provenance is exactly the successful
sources that reported its exact cleaned name, a name appears iff some
successful source reported it, and `total_unique` counts the entries. -/
theorem EnumerateSubdomains_spec (domain : GoStr) (sources : List Source) :
    (EnumerateSubdomains domain sources).sourcesUsed =
      (sources.filter (fun t => t.available)).map Source.name ∧
    ((EnumerateSubdomains domain sources).subdomains.map Subdomain.name).Nodup ∧
    (∀ e ∈ (EnumerateSubdomains domain sources).subdomains,
      e.discoveredBy = reporters sources e.name) ∧
    (∀ nm, nm ∈ (EnumerateSubdomains domain sources).subdomains.map Subdomain.name ↔
      ∃ s ∈ sources, sourceOk s = true ∧ nm ∈ cleanedOf s) ∧
    (EnumerateSubdomains domain sources).totalUnique =
      (EnumerateSubdomains domain sources).subdomains.length := by
  have hfold := agg_fold_spec sources []
    { domain := domain, sourcesUsed := [], totalUnique := 0,
      subdomains := [], summary := [] }
    (by simp) (by simp) (by intro e he; cases he) (by intro nm; simp)
  simp only [List.nil_append] at hfold
  set st := sources.foldl processSource
    { domain := domain, sourcesUsed := [], totalUnique := 0,
      subdomains := [], summary := [] } with hst
  have hsub : (EnumerateSubdomains domain sources).subdomains =
      (SortDomains (st.subdomains.map Subdomain.name)).map
        (fun nm => (lookupEntry st.subdomains nm).getD
          { name := nm, discoveredBy := [] }) := rfl
  have hperm : (EnumerateSubdomains domain sources).subdomains.Perm st.subdomains := by
    rw [hsub]
    refine List.Perm.trans (List.Perm.map _ (SortDomains_perm _)) ?_
    rw [map_lookup_names st.subdomains hfold.2.1]
  refine ⟨hfold.1, ?_, ?_, ?_, rfl⟩
  · exact ((hperm.map Subdomain.name).nodup_iff).mpr hfold.2.1
  · intro e he
    exact hfold.2.2.1 e (hperm.mem_iff.mp he)
  · intro nm
    rw [(hperm.map Subdomain.name).mem_iff]
    exact hfold.2.2.2 nm

/-! ### Claim C1 -/

/-- C1 (counterexample): an available source whose `Enumerate` call fails
still appears in `sources_used`, because the name is appended before
`Enumerate` is called — contradicting the claim that a failing source does
not appear there.  The remaining source's results are still returned. -/
theorem enumerate_sourcesUsed_counterexample :
    (EnumerateSubdomains (str "example.com")
      [{ name := str "s1", available := true, enumerate := .error (str "boom") },
       { name := str "s2", available := true,
         enumerate := .ok [str "x.example.com"] }]).sourcesUsed
      = [str "s1", str "s2"] ∧
    (EnumerateSubdomains (str "example.com")
      [{ name := str "s1", available := true, enumerate := .error (str "boom") },
       { name := str "s2", available := true,
         enumerate := .ok [str "x.example.com"] }]).sourcesUsed
      ≠ [str "s2"] ∧
    (EnumerateSubdomains (str "example.com")
      [{ name := str "s1", available := true, enumerate := .error (str "boom") },
       { name := str "s2", available := true,
         enumerate := .ok [str "x.example.com"] }]).subdomains
      = [{ name := str "x.example.com", discoveredBy := [str "s2"] }] := by
  refine ⟨by decide, by decide, by decide⟩

/-- C1 (amended): `sources_used` contains exactly the available sources in
run order — whether or not their `Enumerate` call succeeded — and the
aggregation still returns the results of the remaining sources: a name
appears in the snapshot iff some available source successfully returned
it after cleaning. -/
theorem EnumerateSubdomains_sourcesUsed (domain : GoStr) (sources : List Source) :
    (EnumerateSubdomains domain sources).sourcesUsed =
      (sources.filter (fun t => t.available)).map Source.name ∧
    (∀ nm, nm ∈ (EnumerateSubdomains domain sources).subdomains.map Subdomain.name ↔
      ∃ s ∈ sources, sourceOk s = true ∧ nm ∈ cleanedOf s) :=
  ⟨(EnumerateSubdomains_spec domain sources).1,
   (EnumerateSubdomains_spec domain sources).2.2.2.1⟩

/-! ### Claim C2 -/

/-- C2 (counterexample): when the three names of the claim arrive from two
sources with differing casing, the aggregator does **not** deduplicate
case-insensitively across sources: the canonical set has three entries
(`a.example.com`, `A.EXAMPLE.COM`, `b.example.com`), not the claimed two,
and `a.example.com`'s provenance misses the source that reported it as
`A.EXAMPLE.COM`.  Cross-source dedup keys on the exact cleaned string;
only the per-source `CleanDomains` pass is case-insensitive. -/
theorem enumerate_dedup_counterexample :
    (EnumerateSubdomains (str "example.com")
      [{ name := str "sA", available := true,
         enumerate := .ok [str "a.example.com"] },
       { name := str "sB", available := true,
         enumerate := .ok [str "A.EXAMPLE.COM", str "*.b.example.com"] }]).totalUnique
      = 3 ∧
    (EnumerateSubdomains (str "example.com")
      [{ name := str "sA", available := true,
         enumerate := .ok [str "a.example.com"] },
       { name := str "sB", available := true,
         enumerate := .ok [str "A.EXAMPLE.COM", str "*.b.example.com"] }]).subdomains
      = [{ name := str "a.example.com", discoveredBy := [str "sA"] },
         { name := str "A.EXAMPLE.COM", discoveredBy := [str "sB"] },
         { name := str "b.example.com", discoveredBy := [str "sB"] }] := by
  refine ⟨by decide, by decide⟩

/-- C2 (amended): within one source's list dedup is case-insensitive and
keeps the first casing; across sources the canonical map keys on the exact
cleaned name, so an entry's provenance is exactly the successful sources
whose cleaned output contains that exact name, in run order and — when
source names are distinct — without duplicate provenance entries. -/
theorem EnumerateSubdomains_provenance (domain : GoStr) (sources : List Source)
    (hnames : (sources.map Source.name).Nodup) :
    ∀ e ∈ (EnumerateSubdomains domain sources).subdomains,
      e.discoveredBy = reporters sources e.name ∧ e.discoveredBy.Nodup := by
  intro e he
  have hdb := (EnumerateSubdomains_spec domain sources).2.2.1 e he
  refine ⟨hdb, ?_⟩
  rw [hdb, reporters]
  exact List.Nodup.sublist
    (List.Sublist.map Source.name (List.filter_sublist sources)) hnames

/-- C2 (witness): a single source returning the claim's three names yields
the entry `a.example.com` with provenance exactly that source, without
duplicates. -/
theorem EnumerateSubdomains_provenance_witness :
    (Subdomain.mk (str "a.example.com") [str "crtsh"]).discoveredBy =
      reporters [Source.mk (str "crtsh") true
        (.ok [str "a.example.com", str "*.b.example.com", str "A.EXAMPLE.COM"])]
        (Subdomain.mk (str "a.example.com") [str "crtsh"]).name ∧
    (Subdomain.mk (str "a.example.com") [str "crtsh"]).discoveredBy.Nodup :=
  EnumerateSubdomains_provenance (str "example.com")
    [Source.mk (str "crtsh") true
      (.ok [str "a.example.com", str "*.b.example.com", str "A.EXAMPLE.COM"])]
    (by decide) (Subdomain.mk (str "a.example.com") [str "crtsh"]) (by decide)

/-! ### Liveness verifier -/

theorem extractTitle_length_le (html : GoStr) : (extractTitle html).length ≤ 103 := by
  unfold extractTitle
  cases h : findTitle html with
  | none => simp
  | some m =>
    show ((if (trimSpace m).length > 100 then
      List.take 100 (trimSpace m) ++ str "..." else trimSpace m)).length ≤ 103
    by_cases hl : (trimSpace m).length > 100
    · rw [if_pos hl]
      rw [List.length_append, List.length_take]
      simp [str]
    · rw [if_neg hl]
      omega

/-! ### Claim C4 -/

/-- C4: when DNS resolution fails or returns no addresses the outcome is
exactly `status="dead"` with a nil HTTP probe; when DNS resolves but both
the HTTPS and the HTTP attempt fail, the outcome is `status="dead"` with
`dns.resolves=true` and a non-nil HTTP result with `accessible=false`. -/
theorem VerifySubdomain_dead_classification (sub : GoStr)
    (dnsLookup : Except GoStr (List GoStr))
    (httpsResp httpResp : Option HTTPResponse) :
    ((resolveDNS dnsLookup).resolves = false →
      VerifySubdomain sub dnsLookup httpsResp httpResp =
        ({ status := str "dead", dns := some (resolveDNS dnsLookup),
           http := none }, none)) ∧
    ((resolveDNS dnsLookup).resolves = true → httpsResp = none → httpResp = none →
      (VerifySubdomain sub dnsLookup httpsResp httpResp).1.status = str "dead" ∧
      (VerifySubdomain sub dnsLookup httpsResp httpResp).1.dns =
        some (resolveDNS dnsLookup) ∧
      (VerifySubdomain sub dnsLookup httpsResp httpResp).1.http =
        some (probeHTTP sub none none) ∧
      (probeHTTP sub none none).accessible = false) := by
  constructor
  · intro h
    simp [VerifySubdomain, h]
  · intro h h1 h2
    subst h1
    subst h2
    have hacc : (probeHTTP sub none none).accessible = false := rfl
    simp [VerifySubdomain, h, hacc]

/-- C4 (witness): a failing lookup gives the dead/nil-HTTP outcome; a
resolving host with both probes failing gives dead with
`dns.resolves=true` and an inaccessible HTTP result. -/
theorem VerifySubdomain_dead_classification_witness :
    VerifySubdomain (str "h.example.com") (.error (str "no such host")) none none =
      ({ status := str "dead",
         dns := some { resolves := false, ips := [], error := str "no such host" },
         http := none }, none) ∧
    (VerifySubdomain (str "h.example.com") (.ok [str "1.2.3.4"]) none none).1.status
      = str "dead" ∧
    (VerifySubdomain (str "h.example.com") (.ok [str "1.2.3.4"]) none none).1.dns
      = some { resolves := true, ips := [str "1.2.3.4"], error := [] } := by
  have h1 := (VerifySubdomain_dead_classification (str "h.example.com")
    (.error (str "no such host")) none none).1 (by decide)
  have h2 := (VerifySubdomain_dead_classification (str "h.example.com")
    (.ok [str "1.2.3.4"]) none none).2 (by decide) rfl rfl
  exact ⟨by rw [h1]; rfl, h2.1, by rw [h2.2.1]; rfl⟩

/-! ### Claim C10 -/

/-- C10: `VerifySubdomain` is total and never yields the declared `"error"`
status: the returned error is always nil, the DNS field is always set, the
status is exactly `"alive"` or `"dead"`, and it is `"alive"` iff DNS
resolved and an HTTP probe succeeded. -/
theorem VerifySubdomain_total (sub : GoStr)
    (dnsLookup : Except GoStr (List GoStr))
    (httpsResp httpResp : Option HTTPResponse) :
    (VerifySubdomain sub dnsLookup httpsResp httpResp).2 = none ∧
    (VerifySubdomain sub dnsLookup httpsResp httpResp).1.dns =
      some (resolveDNS dnsLookup) ∧
    ((VerifySubdomain sub dnsLookup httpsResp httpResp).1.status = str "alive" ∨
     (VerifySubdomain sub dnsLookup httpsResp httpResp).1.status = str "dead") ∧
    ((VerifySubdomain sub dnsLookup httpsResp httpResp).1.status = str "alive" ↔
      (resolveDNS dnsLookup).resolves = true ∧
      (probeHTTP sub httpsResp httpResp).accessible = true) := by
  by_cases hres : (resolveDNS dnsLookup).resolves = false
  · refine ⟨by simp [VerifySubdomain, hres], by simp [VerifySubdomain, hres],
      Or.inr (by simp [VerifySubdomain, hres]), ?_⟩
    constructor
    · intro h
      have : (VerifySubdomain sub dnsLookup httpsResp httpResp).1.status =
          str "dead" := by simp [VerifySubdomain, hres]
      rw [this] at h
      exact absurd h (by decide)
    · rintro ⟨h1, _⟩
      rw [h1] at hres
      cases hres
  · have hres' : (resolveDNS dnsLookup).resolves = true := by
      cases h : (resolveDNS dnsLookup).resolves
      · exact absurd h hres
      · rfl
    rcases Bool.eq_false_or_eq_true
        ((probeHTTP sub httpsResp httpResp).accessible) with hacc | hacc
    · refine ⟨by simp [VerifySubdomain, hres', hacc],
        by simp [VerifySubdomain, hres'],
        Or.inl (by simp [VerifySubdomain, hres', hacc]), ?_⟩
      constructor
      · intro _
        exact ⟨hres', hacc⟩
      · intro _
        simp [VerifySubdomain, hres', hacc]
    · refine ⟨by simp [VerifySubdomain, hres', hacc],
        by simp [VerifySubdomain, hres'],
        Or.inr (by simp [VerifySubdomain, hres', hacc]), ?_⟩
      constructor
      · intro h
        have hstat : (VerifySubdomain sub dnsLookup httpsResp httpResp).1.status =
            str "dead" := by simp [VerifySubdomain, hres', hacc]
        rw [hstat] at h
        exact absurd h (by decide)
      · rintro ⟨_, h2⟩
        rw [h2] at hacc
        cases hacc

/-! ### Claim C5 -/

/-- C5: the probe client follows redirects only up to the fixed cap — the
number of redirects followed is at most 3 (in fact at most 2, since
`CheckRedirect` trips once three requests are on record) — and a host that
keeps redirecting still yields a classified response (the one observed at
the cap) with a nil error rather than an error or an unbounded chase. -/
theorem clientDo_redirect_cap (chain : Nat → HTTPResponse) :
    (∃ resp n, clientDo chain = .ok (resp, n) ∧ n ≤ 3 ∧ resp = chain n) ∧
    ((∀ k, k ≤ 3 → shouldRedirect (chain k) = true) →
      clientDo chain = .ok (chain 2, 2)) := by
  by_cases h0 : shouldRedirect (chain 0) = true
  · by_cases h1 : shouldRedirect (chain 1) = true
    · have hrun : clientDo chain = .ok (chain 2, 2) := by
        simp [clientDo, clientDoAux, checkRedirect, h0, h1]
      exact ⟨⟨chain 2, 2, hrun, by omega, rfl⟩, fun _ => hrun⟩
    · have hrun : clientDo chain = .ok (chain 1, 1) := by
        simp [clientDo, clientDoAux, checkRedirect, h0, h1]
      refine ⟨⟨chain 1, 1, hrun, by omega, rfl⟩, fun hall => ?_⟩
      exact absurd (hall 1 (by omega)) (by simp [h1])
  · have hrun : clientDo chain = .ok (chain 0, 0) := by
      simp [clientDo, clientDoAux, h0]
    refine ⟨⟨chain 0, 0, hrun, by omega, rfl⟩, fun hall => ?_⟩
    exact absurd (hall 0 (by omega)) (by simp [h0])

/-- C5 (witness): a server that always redirects is classified from the
response observed at the cap, with no error. -/
theorem clientDo_redirect_cap_witness :
    clientDo (fun _ => (⟨301, [], [], str "/next", 0, 0⟩ : HTTPResponse)) =
      .ok ((⟨301, [], [], str "/next", 0, 0⟩ : HTTPResponse), 2) :=
  (clientDo_redirect_cap
    (fun _ => (⟨301, [], [], str "/next", 0, 0⟩ : HTTPResponse))).2
    (fun k _ => by decide)

/-! ### Claim C6 -/

/-- C6 (counterexample): a `text/html` response whose page title is 150
characters long yields a recorded title of length 103 — the first 100
characters plus `"..."` — not "at most 100 characters" as claimed. -/
theorem probeHTTP_title_counterexample :
    (probeHTTP (str "h.example.com")
      (some { statusCode := 200, contentType := str "text/html; charset=utf-8",
              body := str "<title>" ++ List.replicate 150 'a' ++ str "</title>",
              location := [], contentLength := 0, elapsedMs := 0 })
      none).title.length = 103 ∧
    ¬ ((probeHTTP (str "h.example.com")
      (some { statusCode := 200, contentType := str "text/html; charset=utf-8",
              body := str "<title>" ++ List.replicate 150 'a' ++ str "</title>",
              location := [], contentLength := 0, elapsedMs := 0 })
      none).title.length ≤ 100) := by
  refine ⟨by decide, by decide⟩

/-- C6 (amended): a title is extracted only when the response Content-Type
contains `text/html`, from at most the first 1 MB of the body; the
recorded title is the trimmed regex capture, truncated past 100 characters
to its first 100 characters plus `"..."` — hence at most 103 characters,
not at most 100. -/
theorem probeHTTP_title_spec (sub : GoStr)
    (httpsResp httpResp : Option HTTPResponse) :
    ((probeHTTP sub httpsResp httpResp).title).length ≤ 103 ∧
    (∀ resp, (httpsResp = some resp ∨ httpsResp = none ∧ httpResp = some resp) →
      (probeHTTP sub httpsResp httpResp).title =
        (if containsSub resp.contentType (str "text/html") = true then
          extractTitle (resp.body.take bodyCap) else [])) ∧
    ((httpsResp = none ∧ httpResp = none) →
      (probeHTTP sub httpsResp httpResp).title = []) := by
  refine ⟨?_, ?_, ?_⟩
  · cases httpsResp with
    | some r =>
      show (buildHTTPResult (str "https") sub r).title.length ≤ 103
      unfold buildHTTPResult
      split
      · exact extractTitle_length_le _
      · simp
    | none =>
      cases httpResp with
      | some r =>
        show (buildHTTPResult (str "http") sub r).title.length ≤ 103
        unfold buildHTTPResult
        split
        · exact extractTitle_length_le _
        · simp
      | none => simp [probeHTTP]
  · rintro resp (h | ⟨h1, h2⟩)
    · subst h
      rfl
    · subst h1
      subst h2
      rfl
  · rintro ⟨h1, h2⟩
    subst h1
    subst h2
    rfl

/-- C6 (witness): the amended theorem at a concrete `text/html` response
whose title is 150 characters long. -/
theorem probeHTTP_title_spec_witness :
    (probeHTTP (str "h.example.com")
      (some { statusCode := 200, contentType := str "text/html; charset=utf-8",
              body := str "<title>" ++ List.replicate 150 'a' ++ str "</title>",
              location := [], contentLength := 0, elapsedMs := 0 })
      none).title =
      (if containsSub (str "text/html; charset=utf-8") (str "text/html") = true then
        extractTitle (((str "<title>" ++ List.replicate 150 'a' ++
          str "</title>") : GoStr).take bodyCap)
      else []) :=
  (probeHTTP_title_spec (str "h.example.com")
    (some { statusCode := 200, contentType := str "text/html; charset=utf-8",
            body := str "<title>" ++ List.replicate 150 'a' ++ str "</title>",
            location := [], contentLength := 0, elapsedMs := 0 })
    none).2.1
    { statusCode := 200, contentType := str "text/html; charset=utf-8",
      body := str "<title>" ++ List.replicate 150 'a' ++ str "</title>",
      location := [], contentLength := 0, elapsedMs := 0 }
    (Or.inl rfl)

/-! ### Claim C7 -/

theorem checkTakeoverAux_spec : ∀ (table : List (GoStr × List GoStr))
    (info : DNSInfo) (cl : GoStr),
    ((∀ p ∈ table, containsSub cl p.1 = false) →
      checkTakeoverAux info cl table = info) ∧
    ((∃ p ∈ table, containsSub cl p.1 = true) →
      (checkTakeoverAux info cl table).takeoverRisk = true ∧
      ∃ svc ∈ table.map Prod.fst, containsSub cl svc = true ∧
        (checkTakeoverAux info cl table).takeoverReason = takeoverMsg svc) := by
  intro table
  induction table with
  | nil =>
    intro info cl
    refine ⟨fun _ => rfl, ?_⟩
    rintro ⟨p, hp, _⟩
    cases hp
  | cons hd tl ih =>
    intro info cl
    obtain ⟨service, sigs⟩ := hd
    constructor
    · intro hnone
      have h1 : containsSub cl service = false :=
        hnone (service, sigs) (List.mem_cons_self _ _)
      simp only [checkTakeoverAux, h1]
      rw [if_neg (by simp)]
      exact (ih info cl).1 (fun p hp => hnone p (List.mem_cons_of_mem _ hp))
    · rintro ⟨p, hp, hcont⟩
      by_cases h1 : containsSub cl service = true
      · simp only [checkTakeoverAux]
        rw [if_pos h1]
        exact ⟨rfl, service, by simp, h1, rfl⟩
      · have h1' : containsSub cl service = false := by
          cases h : containsSub cl service
          · rfl
          · exact absurd h h1
        simp only [checkTakeoverAux, h1']
        rw [if_neg (by simp)]
        have hex : ∃ p ∈ tl, containsSub cl p.1 = true := by
          rcases List.mem_cons.mp hp with rfl | hmem
          · rw [hcont] at h1'
            cases h1'
          · exact ⟨p, hmem, hcont⟩
        obtain ⟨hrisk, svc, hsvc, hc, hreason⟩ := (ih info cl).2 hex
        exact ⟨hrisk, svc, List.mem_cons_of_mem _ hsvc, hc, hreason⟩

/-- C7: if the lowered CNAME target contains an entry of the static
takeover table, the host is flagged `takeover_risk=true` and the recorded
reason names a matched service; if no table entry matches, the info record
is left unchanged — in particular `takeover_risk=false` and no reason is
set when the input record carries the zero values the caller builds. -/
theorem checkSubdomainTakeover_spec (info : DNSInfo) (cname : GoStr)
    (hrisk : info.takeoverRisk = false) (hreason : info.takeoverReason = []) :
    ((∃ svc ∈ sigServices, containsSub (toLowerStr cname) svc = true) →
      (checkSubdomainTakeover info cname).takeoverRisk = true ∧
      ∃ svc ∈ sigServices, containsSub (toLowerStr cname) svc = true ∧
        (checkSubdomainTakeover info cname).takeoverReason = takeoverMsg svc) ∧
    ((∀ svc ∈ sigServices, containsSub (toLowerStr cname) svc = false) →
      (checkSubdomainTakeover info cname).takeoverRisk = false ∧
      (checkSubdomainTakeover info cname).takeoverReason = []) := by
  have hspec := checkTakeoverAux_spec takeoverSignatures info (toLowerStr cname)
  constructor
  · rintro ⟨svc, hsvc, hcont⟩
    obtain ⟨p, hp, hfst⟩ := List.mem_map.mp hsvc
    rw [← hfst] at hcont
    obtain ⟨hrisk', svc', hsvc', hc', hreason'⟩ := hspec.2 ⟨p, hp, hcont⟩
    exact ⟨hrisk', svc', hsvc', hc', hreason'⟩
  · intro hnone
    have heq : checkSubdomainTakeover info cname = info :=
      hspec.1 (fun p hp => hnone p.1 (List.mem_map_of_mem Prod.fst hp))
    rw [heq]
    exact ⟨hrisk, hreason⟩

/-- C7 (witness): `foo.herokuapp.com` is flagged with a reason naming
`herokuapp.com`; `foo.example.com` matches nothing and stays unflagged. -/
theorem checkSubdomainTakeover_witness :
    (checkSubdomainTakeover
      (⟨str "h", [], [], [], [], [], [], [], false, []⟩ : DNSInfo)
      (str "foo.herokuapp.com")).takeoverRisk = true ∧
    (checkSubdomainTakeover
      (⟨str "h", [], [], [], [], [], [], [], false, []⟩ : DNSInfo)
      (str "foo.example.com")).takeoverRisk = false ∧
    (checkSubdomainTakeover
      (⟨str "h", [], [], [], [], [], [], [], false, []⟩ : DNSInfo)
      (str "foo.example.com")).takeoverReason = [] := by
  have h1 := (checkSubdomainTakeover_spec
    (⟨str "h", [], [], [], [], [], [], [], false, []⟩ : DNSInfo)
    (str "foo.herokuapp.com") rfl rfl).1 (by decide)
  have h2 := (checkSubdomainTakeover_spec
    (⟨str "h", [], [], [], [], [], [], [], false, []⟩ : DNSInfo)
    (str "foo.example.com") rfl rfl).2 (by decide)
  exact ⟨h1.1, h2.1, h2.2⟩

/-! ### Claim C9 -/

theorem runningCount_append (l1 l2 : List WStatus) :
    runningCount (l1 ++ l2) = runningCount l1 + runningCount l2 := by
  simp [runningCount, List.filter_append]

theorem runningCount_cons (w : WStatus) (l : List WStatus) :
    runningCount (w :: l) =
      (if w = WStatus.running then 1 else 0) + runningCount l := by
  cases w with
  | idle => simp [runningCount]
  | running => simp [runningCount]; omega
  | done => simp [runningCount]

theorem poolStep_bound {W : Nat} {s t : List WStatus}
    (hstep : PoolStep W s t) (hs : runningCount s ≤ W) :
    runningCount t ≤ W := by
  cases hstep with
  | acquire pre post hguard =>
    rw [runningCount_append, runningCount_cons] at hguard ⊢
    simp at hguard ⊢
    omega
  | finish pre post =>
    rw [runningCount_append, runningCount_cons] at hs ⊢
    simp at hs ⊢
    omega

theorem poolReach_bound {W n : Nat} {s : List WStatus}
    (h : PoolReach W n s) : runningCount s ≤ W := by
  induction h with
  | init =>
    have hrep : runningCount (List.replicate n WStatus.idle) = 0 := by
      induction n with
      | zero => rfl
      | succ k ihk => simpa [List.replicate_succ, runningCount_cons] using ihk
    omega
  | step _ hstep ih => exact poolStep_bound hstep ih

/-- C9: each stage runs its probes under its own semaphore of width `W`
(`VerifySubdomains` and `EnumerateDNS` each allocate a fresh
`make(chan struct{}, W)`), and in every reachable schedule of the two
pools at most `Wv` verification probes and at most `Wd` DNS probes are in
flight simultaneously — the bounds are per stage, with no global pool. -/
theorem pool_bound (Wv nv Wd nd : Nat) (sv sd : List WStatus)
    (hv : PoolReach Wv nv sv) (hd : PoolReach Wd nd sd) :
    runningCount sv ≤ Wv ∧ runningCount sd ≤ Wd :=
  ⟨poolReach_bound hv, poolReach_bound hd⟩

/-- C9 (witness): with pool width 5 and 100 hosts, a schedule that has
acquired one slot is within the bound, independently of the DNS stage's
own pool of width 10. -/
theorem pool_bound_witness :
    runningCount (WStatus.running :: List.replicate 99 WStatus.idle) ≤ 5 ∧
    runningCount (List.replicate 100 WStatus.idle) ≤ 10 := by
  have hg : runningCount ([] ++ WStatus.idle :: List.replicate 99 WStatus.idle) < 5 := by
    decide
  have hstep := PoolStep.acquire (W := 5) [] (List.replicate 99 WStatus.idle) hg
  have hreach : PoolReach 5 100 (WStatus.running :: List.replicate 99 WStatus.idle) := by
    refine PoolReach.step PoolReach.init ?_
    simpa [List.replicate_succ] using hstep
  exact pool_bound 5 100 10 100 _ _ hreach PoolReach.init

/-! ### Result store: timestamped filenames -/

theorem digitChar_toNat {d : Nat} (h : d < 10) : (digitChar d).toNat = 48 + d := by
  interval_cases d <;> decide

theorem strLt_cons_eq (c d : Char) (x y : GoStr) :
    strLt (c :: x) (d :: y) =
      if c.toNat < d.toNat then true
      else if d.toNat < c.toNat then false
      else strLt x y := rfl

/-- Comparing equal-length blocks: the first differing block decides. -/
theorem strLt_blocks : ∀ (u v x y : GoStr), u.length = v.length →
    strLt (u ++ x) (v ++ y) = if u = v then strLt x y else strLt u v := by
  intro u
  induction u with
  | nil =>
    intro v x y hlen
    cases v with
    | nil => simp
    | cons d ds => simp at hlen
  | cons c u' ih =>
    intro v x y hlen
    cases v with
    | nil => simp at hlen
    | cons d ds =>
      simp only [List.cons_append, strLt_cons_eq]
      by_cases h1 : c.toNat < d.toNat
      · have hne : ¬ (c :: u') = (d :: ds) := by
          intro he
          injection he with hcd htl
          rw [hcd] at h1
          omega
        rw [if_pos h1, if_neg hne, if_pos h1]
      · by_cases h2 : d.toNat < c.toNat
        · have hne : ¬ (c :: u') = (d :: ds) := by
            intro he
            injection he with hcd htl
            rw [hcd] at h2
            omega
          rw [if_neg h1, if_pos h2, if_neg hne, if_neg h1, if_pos h2]
        · have hcd : c = d := char_eq_of_toNat_eq (by omega)
          subst hcd
          rw [if_neg h1, if_neg h2, ih ds x y (by simpa using hlen)]
          by_cases hu : u' = ds
          · rw [if_pos hu, if_pos (by rw [hu])]
          · rw [if_neg hu, if_neg (by simp [hu]), if_neg h1, if_neg h2]

theorem strLt_pad2 {a b : Nat} (ha : a < 100) (hb : b < 100) :
    strLt (pad2 a) (pad2 b) = decide (a < b) := by
  have h1 := digitChar_toNat (d := a / 10) (by omega)
  have h2 := digitChar_toNat (d := a % 10) (by omega)
  have h3 := digitChar_toNat (d := b / 10) (by omega)
  have h4 := digitChar_toNat (d := b % 10) (by omega)
  simp only [pad2, strLt_cons_eq, h1, h2, h3, h4]
  by_cases hd1 : 48 + a / 10 < 48 + b / 10
  · rw [if_pos hd1]
    have : a < b := by omega
    simp [this]
  · by_cases hd2 : 48 + b / 10 < 48 + a / 10
    · rw [if_neg hd1, if_pos hd2]
      have : ¬ a < b := by omega
      simp [this]
    · rw [if_neg hd1, if_neg hd2]
      by_cases hd3 : 48 + a % 10 < 48 + b % 10
      · rw [if_pos hd3]
        have : a < b := by omega
        simp [this]
      · by_cases hd4 : 48 + b % 10 < 48 + a % 10
        · rw [if_neg hd3, if_pos hd4]
          have : ¬ a < b := by omega
          simp [this]
        · rw [if_neg hd3, if_neg hd4]
          have : ¬ a < b := by omega
          simp [strLt, this]

theorem pad2_inj {a b : Nat} (ha : a < 100) (hb : b < 100)
    (h : pad2 a = pad2 b) : a = b := by
  have h1 := digitChar_toNat (d := a / 10) (by omega)
  have h2 := digitChar_toNat (d := a % 10) (by omega)
  have h3 := digitChar_toNat (d := b / 10) (by omega)
  have h4 := digitChar_toNat (d := b % 10) (by omega)
  simp only [pad2, List.cons.injEq, and_true] at h
  obtain ⟨ha1, ha2⟩ := h
  have e1 : (digitChar (a / 10)).toNat = (digitChar (b / 10)).toNat := by rw [ha1]
  have e2 : (digitChar (a % 10)).toNat = (digitChar (b % 10)).toNat := by rw [ha2]
  rw [h1, h3] at e1
  rw [h2, h4] at e2
  omega

theorem strLt_pad4 {a b : Nat} (ha : a < 10000) (hb : b < 10000) :
    strLt (pad4 a) (pad4 b) = decide (a < b) := by
  have h1 := digitChar_toNat (d := a / 1000) (by omega)
  have h2 := digitChar_toNat (d := a / 100 % 10) (by omega)
  have h3 := digitChar_toNat (d := a / 10 % 10) (by omega)
  have h4 := digitChar_toNat (d := a % 10) (by omega)
  have h5 := digitChar_toNat (d := b / 1000) (by omega)
  have h6 := digitChar_toNat (d := b / 100 % 10) (by omega)
  have h7 := digitChar_toNat (d := b / 10 % 10) (by omega)
  have h8 := digitChar_toNat (d := b % 10) (by omega)
  simp only [pad4, strLt_cons_eq, h1, h2, h3, h4, h5, h6, h7, h8]
  by_cases k1 : 48 + a / 1000 < 48 + b / 1000
  · rw [if_pos k1]
    have : a < b := by omega
    simp [this]
  · by_cases k2 : 48 + b / 1000 < 48 + a / 1000
    · rw [if_neg k1, if_pos k2]
      have : ¬ a < b := by omega
      simp [this]
    · rw [if_neg k1, if_neg k2]
      by_cases k3 : 48 + a / 100 % 10 < 48 + b / 100 % 10
      · rw [if_pos k3]
        have : a < b := by omega
        simp [this]
      · by_cases k4 : 48 + b / 100 % 10 < 48 + a / 100 % 10
        · rw [if_neg k3, if_pos k4]
          have : ¬ a < b := by omega
          simp [this]
        · rw [if_neg k3, if_neg k4]
          by_cases k5 : 48 + a / 10 % 10 < 48 + b / 10 % 10
          · rw [if_pos k5]
            have : a < b := by omega
            simp [this]
          · by_cases k6 : 48 + b / 10 % 10 < 48 + a / 10 % 10
            · rw [if_neg k5, if_pos k6]
              have : ¬ a < b := by omega
              simp [this]
            · rw [if_neg k5, if_neg k6]
              by_cases k7 : 48 + a % 10 < 48 + b % 10
              · rw [if_pos k7]
                have : a < b := by omega
                simp [this]
              · by_cases k8 : 48 + b % 10 < 48 + a % 10
                · rw [if_neg k7, if_pos k8]
                  have : ¬ a < b := by omega
                  simp [this]
                · rw [if_neg k7, if_neg k8]
                  have : ¬ a < b := by omega
                  simp [strLt, this]

theorem pad4_inj {a b : Nat} (ha : a < 10000) (hb : b < 10000)
    (h : pad4 a = pad4 b) : a = b := by
  have h1 := digitChar_toNat (d := a / 1000) (by omega)
  have h2 := digitChar_toNat (d := a / 100 % 10) (by omega)
  have h3 := digitChar_toNat (d := a / 10 % 10) (by omega)
  have h4 := digitChar_toNat (d := a % 10) (by omega)
  have h5 := digitChar_toNat (d := b / 1000) (by omega)
  have h6 := digitChar_toNat (d := b / 100 % 10) (by omega)
  have h7 := digitChar_toNat (d := b / 10 % 10) (by omega)
  have h8 := digitChar_toNat (d := b % 10) (by omega)
  simp only [pad4, List.cons.injEq, and_true] at h
  obtain ⟨e1, e2, e3, e4⟩ := h
  have f1 : (digitChar (a / 1000)).toNat = (digitChar (b / 1000)).toNat := by rw [e1]
  have f2 : (digitChar (a / 100 % 10)).toNat = (digitChar (b / 100 % 10)).toNat := by
    rw [e2]
  have f3 : (digitChar (a / 10 % 10)).toNat = (digitChar (b / 10 % 10)).toNat := by
    rw [e3]
  have f4 : (digitChar (a % 10)).toNat = (digitChar (b % 10)).toNat := by rw [e4]
  rw [h1, h5] at f1
  rw [h2, h6] at f2
  rw [h3, h7] at f3
  rw [h4, h8] at f4
  omega

theorem strLt_pad2_append {a b : Nat} (ha : a < 100) (hb : b < 100)
    (x y : GoStr) :
    strLt (pad2 a ++ x) (pad2 b ++ y) =
      if a = b then strLt x y else decide (a < b) := by
  rw [strLt_blocks (pad2 a) (pad2 b) x y rfl]
  by_cases hab : a = b
  · rw [if_pos (by rw [hab]), if_pos hab]
  · rw [if_neg (fun he => hab (pad2_inj ha hb he)), if_neg hab,
      strLt_pad2 ha hb]

theorem strLt_pad4_append {a b : Nat} (ha : a < 10000) (hb : b < 10000)
    (x y : GoStr) :
    strLt (pad4 a ++ x) (pad4 b ++ y) =
      if a = b then strLt x y else decide (a < b) := by
  rw [strLt_blocks (pad4 a) (pad4 b) x y rfl]
  by_cases hab : a = b
  · rw [if_pos (by rw [hab]), if_pos hab]
  · rw [if_neg (fun he => hab (pad4_inj ha hb he)), if_neg hab,
      strLt_pad4 ha hb]

theorem strLt_underscore_append (x y : GoStr) :
    strLt (str "_" ++ x) (str "_" ++ y) = strLt x y := by
  simp [str, strLt_cons_eq]

theorem strLt_append_left : ∀ (p x y : GoStr),
    strLt (p ++ x) (p ++ y) = strLt x y := by
  intro p
  induction p with
  | nil => intro x y; rfl
  | cons c cs ih =>
    intro x y
    simp only [List.cons_append, strLt_cons_eq, ih]
    simp

theorem strLt_formatTS_append {t1 t2 : DateTime6}
    (h1 : validTS t1 = true) (h2 : validTS t2 = true) (x y : GoStr) :
    strLt (formatTS t1 ++ x) (formatTS t2 ++ y) =
      if tsVal t1 = tsVal t2 then strLt x y
      else decide (tsVal t1 < tsVal t2) := by
  obtain ⟨y1, mo1, dd1, ho1, mi1, ss1⟩ := t1
  obtain ⟨y2, mo2, dd2, ho2, mi2, ss2⟩ := t2
  simp only [validTS, Bool.and_eq_true, decide_eq_true_eq] at h1 h2
  obtain ⟨⟨⟨⟨⟨hy1, hmo1⟩, hdd1⟩, hho1⟩, hmi1⟩, hss1⟩ := h1
  obtain ⟨⟨⟨⟨⟨hy2, hmo2⟩, hdd2⟩, hho2⟩, hmi2⟩, hss2⟩ := h2
  simp only [formatTS, tsVal, List.append_assoc]
  rw [strLt_pad4_append hy1 hy2]
  by_cases hy : y1 = y2
  · rw [if_pos hy]
    subst hy
    rw [strLt_pad2_append hmo1 hmo2]
    by_cases hmo : mo1 = mo2
    · rw [if_pos hmo]
      subst hmo
      rw [strLt_pad2_append hdd1 hdd2]
      by_cases hdd : dd1 = dd2
      · rw [if_pos hdd]
        subst hdd
        rw [strLt_underscore_append, strLt_pad2_append hho1 hho2]
        by_cases hho : ho1 = ho2
        · rw [if_pos hho]
          subst hho
          rw [strLt_pad2_append hmi1 hmi2]
          by_cases hmi : mi1 = mi2
          · rw [if_pos hmi]
            subst hmi
            rw [strLt_pad2_append hss1 hss2]
            by_cases hss : ss1 = ss2
            · rw [if_pos hss]
              subst hss
              rw [if_pos rfl]
            · rw [if_neg hss, if_neg (by intro he; apply hss; omega),
                decide_eq_decide]
              omega
          · rw [if_neg hmi, if_neg (by intro he; apply hmi; omega),
              decide_eq_decide]
            omega
        · rw [if_neg hho, if_neg (by intro he; apply hho; omega),
            decide_eq_decide]
          omega
      · rw [if_neg hdd, if_neg (by intro he; apply hdd; omega),
          decide_eq_decide]
        omega
    · rw [if_neg hmo, if_neg (by intro he; apply hmo; omega),
        decide_eq_decide]
      omega
  · rw [if_neg hy, if_neg (by intro he; apply hy; omega), decide_eq_decide]
    omega

theorem strLt_filename (tool : GoStr) {t1 t2 : DateTime6}
    (h1 : validTS t1 = true) (h2 : validTS t2 = true) :
    strLt (resultFilename tool t1) (resultFilename tool t2) =
      decide (tsVal t1 < tsVal t2) := by
  unfold resultFilename
  simp only [List.append_assoc]
  rw [strLt_append_left, strLt_underscore_append,
    strLt_formatTS_append h1 h2]
  by_cases he : tsVal t1 = tsVal t2
  · rw [if_pos he, strLt_irrefl]
    simp [he]
  · rw [if_neg he]

/-! ### Sorted glob matches and the foldl maximum -/

theorem strLe_refl (a : GoStr) : strLe a a = true := by
  simp [strLe, strLt_irrefl]

instance : IsTotal GoStr strLeP := by
  constructor
  intro a b
  unfold strLeP strLe
  rcases strLt_total a b with h | h | h
  · left; simp [strLt_asymm _ _ h]
  · subst h; left; simp [strLt_irrefl]
  · right; simp [strLt_asymm _ _ h]

instance : IsTrans GoStr strLeP := by
  constructor
  intro a b c hab hbc
  unfold strLeP strLe at hab hbc ⊢
  simp only [Bool.not_eq_true'] at hab hbc ⊢
  by_contra hne
  have h3 : strLt c a = true := by
    cases hv : strLt c a
    · exact absurd hv hne
    · rfl
  rcases strLt_total b c with hd | hd | hd
  · have h4 := strLt_trans _ _ _ hd h3
    rw [h4] at hab
    cases hab
  · rw [← hd] at h3
    rw [h3] at hab
    cases hab
  · rw [hd] at hbc
    cases hbc

theorem getLastD_irrel : ∀ (l : List GoStr) (d1 d2 : GoStr), l ≠ [] →
    l.getLastD d1 = l.getLastD d2 := by
  intro l d1 d2 hl
  cases l with
  | nil => exact absurd rfl hl
  | cons a t => rw [List.getLastD_cons, List.getLastD_cons]

theorem getLastD_mem : ∀ (l : List GoStr) (d : GoStr), l ≠ [] →
    l.getLastD d ∈ l := by
  intro l
  induction l with
  | nil => intro d hl; exact absurd rfl hl
  | cons a t ih =>
    intro d _
    rw [List.getLastD_cons]
    cases ht : t with
    | nil => simp
    | cons b t' =>
      have := ih a (by simp [ht])
      rw [ht] at this
      exact List.mem_cons_of_mem a this

theorem sorted_le_getLastD : ∀ (l : List GoStr), l.Sorted strLeP →
    ∀ x ∈ l, strLeP x (l.getLastD []) := by
  intro l
  induction l with
  | nil => intro _ x hx; cases hx
  | cons a t ih =>
    intro hsorted x hx
    rw [List.getLastD_cons]
    rcases List.mem_cons.mp hx with rfl | hx
    · by_cases ht : t = []
      · subst ht
        exact strLe_refl x
      · have hlast : t.getLastD x ∈ t := getLastD_mem _ _ ht
        exact (List.pairwise_cons.mp hsorted).1 _ hlast
    · have hne : t ≠ [] := by
        intro h0
        rw [h0] at hx
        cases hx
      rw [getLastD_irrel t a [] hne]
      exact ih (List.pairwise_cons.mp hsorted).2 x hx

theorem maxTS_mem : ∀ (ts : List DateTime6) (t0 : DateTime6),
    maxTS t0 ts ∈ t0 :: ts := by
  intro ts
  induction ts with
  | nil => intro t0; simp [maxTS]
  | cons v vs ih =>
    intro t0
    simp only [maxTS, List.foldl_cons]
    have h := ih (if tsVal t0 < tsVal v then v else t0)
    simp only [maxTS] at h
    rcases List.mem_cons.mp h with he | hmem
    · rw [he]
      by_cases hc : tsVal t0 < tsVal v
      · rw [if_pos hc]
        exact List.mem_cons_of_mem _ (List.mem_cons_self _ _)
      · rw [if_neg hc]
        exact List.mem_cons_self _ _
    · exact List.mem_cons_of_mem _ (List.mem_cons_of_mem _ hmem)

theorem maxTS_ge : ∀ (ts : List DateTime6) (t0 u : DateTime6),
    u ∈ t0 :: ts → tsVal u ≤ tsVal (maxTS t0 ts) := by
  intro ts
  induction ts with
  | nil =>
    intro t0 u hu
    rcases List.mem_cons.mp hu with rfl | h
    · exact Nat.le_refl _
    · cases h
  | cons v vs ih =>
    intro t0 u hu
    simp only [maxTS, List.foldl_cons]
    have hstep : tsVal t0 ≤ tsVal (if tsVal t0 < tsVal v then v else t0) ∧
        tsVal v ≤ tsVal (if tsVal t0 < tsVal v then v else t0) := by
      by_cases hc : tsVal t0 < tsVal v
      · rw [if_pos hc]
        omega
      · rw [if_neg hc]
        omega
    have hrec := ih (if tsVal t0 < tsVal v then v else t0)
    simp only [maxTS] at hrec
    rcases List.mem_cons.mp hu with rfl | hu'
    · exact Nat.le_trans hstep.1 (hrec _ (List.mem_cons_self _ _))
    · rcases List.mem_cons.mp hu' with rfl | hu''
      · exact Nat.le_trans hstep.2 (hrec _ (List.mem_cons_self _ _))
      · exact hrec u (List.mem_cons_of_mem _ hu'')

/-! ### Claim C8 -/

/-- C8: `LoadLatestResult`'s optimized selection — sort the glob matches
and take the lexicographically last — refines the specified selection by
maximum embedded timestamp: for every non-empty set of stored files named
`tool_YYYYMMDD_HHMMSS.json` with in-range timestamp fields, the two
selections pick the same file. -/
theorem loadLatestFile_refines_max (tool : GoStr) (t : DateTime6)
    (ts : List DateTime6) (hv : ∀ u ∈ t :: ts, validTS u = true) :
    loadLatestFile ((t :: ts).map (resultFilename tool)) =
      specLoadLatest tool (t :: ts) := by
  set files := (t :: ts).map (resultFilename tool) with hfiles
  have hperm : (sortStrings files).Perm files := List.perm_insertionSort _ _
  have hsorted : (sortStrings files).Sorted strLeP := List.sorted_insertionSort _ _
  have hne : sortStrings files ≠ [] := by
    intro h0
    have hlen := hperm.length_eq
    rw [h0, hfiles] at hlen
    simp at hlen
  have hLmem : (sortStrings files).getLastD [] ∈ sortStrings files :=
    getLastD_mem _ _ hne
  have hLfiles : (sortStrings files).getLastD [] ∈ files := hperm.mem_iff.mp hLmem
  obtain ⟨u, hu, huL⟩ := List.mem_map.mp (hfiles ▸ hLfiles)
  have hMmem : maxTS t ts ∈ t :: ts := maxTS_mem ts t
  have hMfiles : resultFilename tool (maxTS t ts) ∈ files :=
    hfiles ▸ List.mem_map_of_mem _ hMmem
  have hMsorted : resultFilename tool (maxTS t ts) ∈ sortStrings files :=
    hperm.mem_iff.mpr hMfiles
  have h1 : strLeP (resultFilename tool (maxTS t ts))
      ((sortStrings files).getLastD []) :=
    sorted_le_getLastD _ hsorted _ hMsorted
  have hge : tsVal u ≤ tsVal (maxTS t ts) := maxTS_ge ts t u hu
  have h2 : strLt (resultFilename tool (maxTS t ts))
      ((sortStrings files).getLastD []) = false := by
    rw [← huL, strLt_filename tool (hv _ hMmem) (hv u hu)]
    simp [show ¬ (tsVal (maxTS t ts) < tsVal u) from by omega]
  have h3 : strLt ((sortStrings files).getLastD [])
      (resultFilename tool (maxTS t ts)) = false := by
    simpa [strLeP, strLe, Bool.not_eq_true'] using h1
  have heq : (sortStrings files).getLastD [] =
      resultFilename tool (maxTS t ts) := strLt_eq_of_not_lt h3 h2
  have hnotEmpty : (sortStrings files).isEmpty = false := by
    cases h : sortStrings files with
    | nil => exact absurd h hne
    | cons a l => rfl
  simp only [loadLatestFile, specLoadLatest, hnotEmpty]
  rw [if_neg (by simp [hnotEmpty])]
  rw [heq]

/-- C8 (witness): three concrete stored snapshots; both selections pick the
newest file. -/
theorem loadLatestFile_refines_max_witness :
    loadLatestFile (([⟨2025, 1, 31, 14, 30, 22⟩, ⟨2025, 11, 2, 9, 0, 1⟩,
        ⟨2024, 12, 31, 23, 59, 59⟩] : List DateTime6).map
        (resultFilename (str "subdomains"))) =
      specLoadLatest (str "subdomains")
        [⟨2025, 1, 31, 14, 30, 22⟩, ⟨2025, 11, 2, 9, 0, 1⟩,
         ⟨2024, 12, 31, 23, 59, 59⟩] :=
  loadLatestFile_refines_max (str "subdomains") ⟨2025, 1, 31, 14, 30, 22⟩
    [⟨2025, 11, 2, 9, 0, 1⟩, ⟨2024, 12, 31, 23, 59, 59⟩] (by decide)

end Recon
